import Mathlib

set_option maxHeartbeats 1000000
set_option maxRecDepth 4000

namespace AseReader

/-- Error message modelling the RangeError a DataView or typed-array view
raises when an access falls outside the underlying buffer. -/
def rangeErrorMsg : String := "RangeError: offset is outside the bounds of the DataView"

/-- A byte buffer: shallow embedding of a JS ArrayBuffer, one Nat (0..255) per byte. -/
abbrev Buf := List Nat

/-- DataView.getUint8-style single byte read; RangeError out of bounds. -/
def getByte (buf : Buf) (off : Nat) : Except String Nat :=
  match buf[off]? with
  | some b => Except.ok b
  | none => Except.error rangeErrorMsg

/-- DataView.getUint16 big-endian. -/
def getUint16 (buf : Buf) (off : Nat) : Except String Nat := do
  let a ← getByte buf off
  let b ← getByte buf (off + 1)
  pure (256 * a + b)

/-- DataView.getUint32 big-endian. -/
def getUint32 (buf : Buf) (off : Nat) : Except String Nat := do
  let a ← getByte buf off
  let b ← getByte buf (off + 1)
  let c ← getByte buf (off + 2)
  let d ← getByte buf (off + 3)
  pure (16777216 * a + 65536 * b + 256 * c + d)

/-- A Uint8Array view of `len` bytes at `off`: RangeError when it does not fit. -/
def getBytesSub (buf : Buf) (off len : Nat) : Except String (List Nat) :=
  if off + len ≤ buf.length then Except.ok ((buf.drop off).take len)
  else Except.error rangeErrorMsg

/-- getFloat32 big-endian, returning the raw 32-bit pattern of the float. -/
def getFloat32 (buf : Buf) (off : Nat) : Except String Nat :=
  getUint32 buf off

/-- Pair up bytes into big-endian 16-bit code units (TextDecoder utf-16be, step 1). -/
def bytesToUnits : List Nat → List Nat
  | b1 :: b2 :: rest => (256 * b1 + b2) :: bytesToUnits rest
  | _ => []

/-- Combine UTF-16 code units into code points, lone surrogates becoming U+FFFD. -/
def unitsToCodepoints : List Nat → List Nat
  | [] => []
  | [u] => if 0xD800 ≤ u ∧ u < 0xE000 then [0xFFFD] else [u]
  | u :: u2 :: rest =>
    if 0xD800 ≤ u ∧ u < 0xDC00 then
      if 0xDC00 ≤ u2 ∧ u2 < 0xE000 then
        (0x10000 + (u - 0xD800) * 1024 + (u2 - 0xDC00)) :: unitsToCodepoints rest
      else 0xFFFD :: unitsToCodepoints (u2 :: rest)
    else if 0xDC00 ≤ u ∧ u < 0xE000 then 0xFFFD :: unitsToCodepoints (u2 :: rest)
    else u :: unitsToCodepoints (u2 :: rest)

/-- TextDecoder("utf-16be"): byte list to code-point list. -/
def utf16beDecode (bytes : List Nat) : List Nat :=
  unitsToCodepoints (bytesToUnits bytes)

/-- Continuation-byte range check for the UTF-8 decoder. -/
def utf8Cont (lo hi b : Nat) : Bool := decide (lo ≤ b ∧ b ≤ hi)

/-- Allowed second byte of a 3-byte UTF-8 sequence (WHATWG table). -/
def utf8Second3 (b b2 : Nat) : Bool :=
  if b = 0xE0 then utf8Cont 0xA0 0xBF b2
  else if b = 0xED then utf8Cont 0x80 0x9F b2
  else utf8Cont 0x80 0xBF b2

/-- Allowed second byte of a 4-byte UTF-8 sequence (WHATWG table). -/
def utf8Second4 (b b2 : Nat) : Bool :=
  if b = 0xF0 then utf8Cont 0x90 0xBF b2
  else if b = 0xF4 then utf8Cont 0x80 0x8F b2
  else utf8Cont 0x80 0xBF b2

/-- TextDecoder("utf-8") body, structurally recursive on a fuel bound that
dominates the input length (every recursive call is on a strictly shorter
list, so the fuel is never exhausted when it starts at the input length). -/
def utf8DecodeFuel : Nat → List Nat → List Nat
  | 0, _ => []
  | _ + 1, [] => []
  | fuel + 1, b :: rest =>
    if b < 0x80 then b :: utf8DecodeFuel fuel rest
    else if 0xC2 ≤ b ∧ b ≤ 0xDF then
      match rest with
      | [] => [0xFFFD]
      | b2 :: rest2 =>
        if utf8Cont 0x80 0xBF b2 then
          ((b - 0xC0) * 64 + (b2 - 0x80)) :: utf8DecodeFuel fuel rest2
        else 0xFFFD :: utf8DecodeFuel fuel (b2 :: rest2)
    else if 0xE0 ≤ b ∧ b ≤ 0xEF then
      match rest with
      | [] => [0xFFFD]
      | b2 :: rest2 =>
        if utf8Second3 b b2 then
          match rest2 with
          | [] => [0xFFFD]
          | b3 :: rest3 =>
            if utf8Cont 0x80 0xBF b3 then
              ((b - 0xE0) * 4096 + (b2 - 0x80) * 64 + (b3 - 0x80)) :: utf8DecodeFuel fuel rest3
            else 0xFFFD :: utf8DecodeFuel fuel (b3 :: rest3)
        else 0xFFFD :: utf8DecodeFuel fuel (b2 :: rest2)
    else if 0xF0 ≤ b ∧ b ≤ 0xF4 then
      match rest with
      | [] => [0xFFFD]
      | b2 :: rest2 =>
        if utf8Second4 b b2 then
          match rest2 with
          | [] => [0xFFFD]
          | b3 :: rest3 =>
            if utf8Cont 0x80 0xBF b3 then
              match rest3 with
              | [] => [0xFFFD]
              | b4 :: rest4 =>
                if utf8Cont 0x80 0xBF b4 then
                  ((b - 0xF0) * 262144 + (b2 - 0x80) * 4096 + (b3 - 0x80) * 64 + (b4 - 0x80))
                    :: utf8DecodeFuel fuel rest4
                else 0xFFFD :: utf8DecodeFuel fuel (b4 :: rest4)
            else 0xFFFD :: utf8DecodeFuel fuel (b3 :: rest3)
        else 0xFFFD :: utf8DecodeFuel fuel (b2 :: rest2)
    else 0xFFFD :: utf8DecodeFuel fuel rest

/-- TextDecoder("utf-8"): byte list to code-point list, invalid bytes becoming U+FFFD. -/
def utf8Decode (l : List Nat) : List Nat := utf8DecodeFuel l.length l

/-- The JS String.prototype.trim whitespace set. -/
def jsWhitespace (c : Nat) : Bool :=
  c == 0x9 || c == 0xA || c == 0xB || c == 0xC || c == 0xD || c == 0x20 ||
  c == 0xA0 || c == 0x1680 || decide (0x2000 ≤ c ∧ c ≤ 0x200A) ||
  c == 0x2028 || c == 0x2029 || c == 0x202F || c == 0x205F || c == 0x3000 || c == 0xFEFF

/-- String.prototype.trim on code-point lists. -/
def jsTrim (l : List Nat) : List Nat :=
  ((l.dropWhile jsWhitespace).reverse.dropWhile jsWhitespace).reverse

/-- Value denoted by an IEEE-754 binary32 bit pattern: a finite value is kept
in exact form as a signed integer mantissa n and a power-of-two exponent e,
denoting the real number n * 2 ^ e. -/
inductive F32Val
  | finite (n : ℤ) (e : ℤ)
  | nan
  | posInf
  | negInf
deriving DecidableEq

/-- Decode a 32-bit pattern into the float32 value it denotes. -/
def f32Val (bits : Nat) : F32Val :=
  let s : Nat := bits / 2 ^ 31 % 2
  let e : Nat := bits / 2 ^ 23 % 256
  let m : Nat := bits % 2 ^ 23
  if e = 255 then
    if m = 0 then (if s = 1 then F32Val.negInf else F32Val.posInf) else F32Val.nan
  else
    let mant : ℤ := if e = 0 then (m : ℤ) else (2 ^ 23 + m : ℤ)
    let expo : ℤ := if e = 0 then -149 else (e : ℤ) - 150
    F32Val.finite (if s = 1 then -mant else mant) expo

/-- The rational number denoted by mantissa and exponent. -/
def f32Q (n e : ℤ) : ℚ := (n : ℚ) * (2 : ℚ) ^ e

/-- Math.floor((n * 2 ^ e) * 255), computed exactly in integer arithmetic
(Int division in Lean rounds toward negative infinity for a positive divisor,
matching the floor; the lemma floorMul255_eq_floor certifies this). -/
def floorMul255 (n e : ℤ) : ℤ :=
  if 0 ≤ e then n * 255 * 2 ^ e.toNat
  else n * 255 / ((2 ^ (-e).toNat : ℕ) : ℤ)

/-- Code point of the uppercase hexadecimal digit for n < 16. -/
def hexDigitCode (n : Nat) : Nat := if n < 10 then 48 + n else 55 + n

/-- Hex-digit emitter, structurally recursive on a fuel bound dominating the
digit count (n / 16 strictly decreases, so fuel n + 1 always suffices). -/
def natToHexAux : Nat → Nat → List Nat
  | 0, _ => []
  | fuel + 1, n =>
    if n < 16 then [hexDigitCode n]
    else natToHexAux fuel (n / 16) ++ [hexDigitCode (n % 16)]

/-- Uppercase hexadecimal digits of a Nat (Number.prototype.toString(16).toUpperCase). -/
def natToHex (n : Nat) : List Nat := natToHexAux (n + 1) n

/-- toString(16) of an integer: sign prefix then hex digits of the absolute value. -/
def intToStringBase16 (i : ℤ) : List Nat :=
  if i < 0 then 45 :: natToHex i.natAbs else natToHex i.toNat

/-- String.prototype.padStart(2, "0") on code-point lists. -/
def padStart2 (l : List Nat) : List Nat :=
  if l.length < 2 then List.replicate (2 - l.length) 48 ++ l else l

/-- One channel of the derived hex attribute:
Math.floor(value * 255).toString(16).toUpperCase().padStart(2, "0"),
taking the channel as a float32 bit pattern (NaN and the infinities follow
the JS number-to-string rules). -/
def componentToHex (bits : Nat) : List Nat :=
  padStart2 (match f32Val bits with
    | F32Val.finite n e => intToStringBase16 (floorMul255 n e)
    | F32Val.nan => [78, 65, 78]
    | F32Val.posInf => [73, 78, 70, 73, 78, 73, 84, 89]
    | F32Val.negInf => 45 :: [73, 78, 70, 73, 78, 73, 84, 89])

/-- The rgbToHex helper of _readColor: concatenation of the three channel pairs. -/
def rgbToHex (r g b : Nat) : List Nat :=
  componentToHex r ++ componentToHex g ++ componentToHex b

/-- The three swatch classifications of the ASE format. -/
inductive ColorType
  | global
  | spot
  | normal
deriving DecidableEq

/-- ASE_COLOR_TYPES lookup table; indexing past its end yields none (JS undefined). -/
def ASE_COLOR_TYPES : List ColorType := [ColorType.global, ColorType.spot, ColorType.normal]

/-- The Color variants. Components carry float32 bit patterns; names and hex
strings are code-point lists; the type field is none when the uint16 ordinal
indexed past the end of ASE_COLOR_TYPES (JS undefined). -/
inductive Color
  | rgb (r g b : Nat) (hex : List Nat) (type : Option ColorType)
  | cmyk (c m y k : Nat) (type : Option ColorType)
  | gray (gray : Nat) (hex : List Nat) (type : Option ColorType)
  | lab (lightness a b : Nat) (type : Option ColorType)
deriving DecidableEq

/-- Entry: color, group, or the transient group-end marker. -/
inductive Entry
  | color (name : List Nat) (color : Color)
  | group (name : List Nat) (entries : List Entry)
  | groupEnd

mutual

/-- Decidable equality on entries (written by hand: the deriving handler does
not support the nested occurrence of Entry inside List). -/
def entryDecEq : (a b : Entry) → Decidable (a = b)
  | Entry.color n1 c1, Entry.color n2 c2 =>
    match decEq n1 n2, decEq c1 c2 with
    | isTrue h1, isTrue h2 => isTrue (by rw [h1, h2])
    | isFalse h1, _ => isFalse (by intro h; injection h with ha hb; exact h1 ha)
    | _, isFalse h2 => isFalse (by intro h; injection h with ha hb; exact h2 hb)
  | Entry.color _ _, Entry.group _ _ => isFalse (fun h => Entry.noConfusion h)
  | Entry.color _ _, Entry.groupEnd => isFalse (fun h => Entry.noConfusion h)
  | Entry.group _ _, Entry.color _ _ => isFalse (fun h => Entry.noConfusion h)
  | Entry.group n1 l1, Entry.group n2 l2 =>
    match decEq n1 n2, entryListDecEq l1 l2 with
    | isTrue h1, isTrue h2 => isTrue (by rw [h1, h2])
    | isFalse h1, _ => isFalse (by intro h; injection h with ha hb; exact h1 ha)
    | _, isFalse h2 => isFalse (by intro h; injection h with ha hb; exact h2 hb)
  | Entry.group _ _, Entry.groupEnd => isFalse (fun h => Entry.noConfusion h)
  | Entry.groupEnd, Entry.color _ _ => isFalse (fun h => Entry.noConfusion h)
  | Entry.groupEnd, Entry.group _ _ => isFalse (fun h => Entry.noConfusion h)
  | Entry.groupEnd, Entry.groupEnd => isTrue rfl

/-- Decidable equality on entry lists, mutual with entryDecEq. -/
def entryListDecEq : (a b : List Entry) → Decidable (a = b)
  | [], [] => isTrue rfl
  | [], _ :: _ => isFalse (fun h => List.noConfusion h)
  | _ :: _, [] => isFalse (fun h => List.noConfusion h)
  | a :: as, b :: bs =>
    match entryDecEq a b, entryListDecEq as bs with
    | isTrue h1, isTrue h2 => isTrue (by rw [h1, h2])
    | isFalse h1, _ => isFalse (by intro h; injection h with ha hb; exact h1 ha)
    | _, isFalse h2 => isFalse (by intro h; injection h with ha hb; exact h2 hb)

end

instance : DecidableEq Entry := entryDecEq

/-- ASE_SIGNATURE: the ASCII bytes of ASEF as a big-endian uint32. -/
def ASE_SIGNATURE : Nat := 0x41534546

/-- _readUTF16BE: a Uint8Array view of (length - 1) * 2 bytes (RangeError when
length is 0, since the JS view length would be negative) decoded as UTF-16BE. -/
def readUTF16BE (buf : Buf) (off len : Nat) : Except String (List Nat) :=
  if len = 0 then Except.error rangeErrorMsg
  else do
    let bytes ← getBytesSub buf off ((len - 1) * 2)
    pure (utf16beDecode bytes)

/-- _readColor: parse a color block payload at `off`. -/
def readColor (buf : Buf) (off : Nat) : Except String Entry := do
  let nameLength ← getUint16 buf off
  let colorOffset := off + 2 + nameLength * 2
  let name ← readUTF16BE buf (off + 2) nameLength
  let modelBytes ← getBytesSub buf colorOffset 4
  let model := jsTrim (utf8Decode modelBytes)
  if model = [82, 71, 66] then do
    let r ← getFloat32 buf (colorOffset + 4)
    let g ← getFloat32 buf (colorOffset + 8)
    let b ← getFloat32 buf (colorOffset + 12)
    let colorTypeIndex ← getUint16 buf (colorOffset + 16)
    pure (Entry.color name (Color.rgb r g b (rgbToHex r g b) ASE_COLOR_TYPES[colorTypeIndex]?))
  else if model = [67, 77, 89, 75] then do
    let c ← getFloat32 buf (colorOffset + 4)
    let m ← getFloat32 buf (colorOffset + 8)
    let y ← getFloat32 buf (colorOffset + 12)
    let k ← getFloat32 buf (colorOffset + 16)
    let colorTypeIndex ← getUint16 buf (colorOffset + 20)
    pure (Entry.color name (Color.cmyk c m y k ASE_COLOR_TYPES[colorTypeIndex]?))
  else if model = [71, 114, 97, 121] then do
    let g ← getFloat32 buf (colorOffset + 4)
    let colorTypeIndex ← getUint16 buf (colorOffset + 8)
    pure (Entry.color name (Color.gray g (rgbToHex g g g) ASE_COLOR_TYPES[colorTypeIndex]?))
  else if model = [76, 65, 66] then do
    let l ← getFloat32 buf (colorOffset + 4)
    let a ← getFloat32 buf (colorOffset + 8)
    let b ← getFloat32 buf (colorOffset + 12)
    let colorTypeIndex ← getUint16 buf (colorOffset + 16)
    pure (Entry.color name (Color.lab l a b ASE_COLOR_TYPES[colorTypeIndex]?))
  else Except.error "Unsupported color model"

/-- _readGroup: parse a group-start payload; children start empty. -/
def readGroup (buf : Buf) (off : Nat) : Except String Entry := do
  let nameLength ← getUint16 buf off
  let name ← readUTF16BE buf (off + 2) nameLength
  pure (Entry.group name [])

/-- The block-iteration loop of _readEntries: parse `n` blocks starting at `off`. -/
def readEntriesAux (buf : Buf) : Nat → Nat → Except String (List Entry)
  | 0, _ => Except.ok []
  | n + 1, off => do
    let type ← getUint16 buf off
    let blockLength ← getUint32 buf (off + 2)
    let entry ←
      if type = 1 then readColor buf (off + 6)
      else if type = 0xC001 then readGroup buf (off + 6)
      else if type = 0xC002 then pure Entry.groupEnd
      else Except.error "Unsupported type"
    let rest ← readEntriesAux buf n (off + 6 + blockLength)
    pure (entry :: rest)

/-- _readEntries: read the block count at offset 8, then iterate that many blocks. -/
def readEntries (buf : Buf) (off : Nat) : Except String (List Entry) := do
  let numberOfEntries ← getUint32 buf 8
  readEntriesAux buf numberOfEntries off

/-- One step of the reduction pass of read: push into the trailing group unless
the entry is a group-end (then drop it); otherwise push at the top level. -/
def reduceStep (acc : List Entry) (e : Entry) : List Entry :=
  match acc.getLast? with
  | some (Entry.group nm es) =>
    match e with
    | Entry.groupEnd => acc
    | _ => acc.dropLast ++ [Entry.group nm (es ++ [e])]
  | _ => acc ++ [e]

/-- read: validate header, parse the flat block list, then run the reduction
pass.  Header reads happen before the try block, so their RangeErrors escape;
all failures inside the try are downgraded to an empty result. -/
def read (buf : Buf) : Except String (List Entry) :=
  match getUint32 buf 0 with
  | Except.error e => Except.error e
  | Except.ok signature =>
    if signature ≠ ASE_SIGNATURE then Except.ok []
    else
      match getUint16 buf 4 with
      | Except.error e => Except.error e
      | Except.ok major =>
        match getUint16 buf 6 with
        | Except.error e => Except.error e
        | Except.ok minor =>
          if ¬(major = 1 ∧ minor = 0) then Except.ok []
          else
            match readEntries buf 12 with
            | Except.error _ => Except.ok []
            | Except.ok raw => Except.ok (raw.foldl reduceStep [])

/-- Big-endian bytes of a uint16 store (DataView.setUint16 applies ToUint16). -/
def be16 (v : Nat) : List Nat := [v % 65536 / 256, v % 256]

/-- Big-endian bytes of a uint32 store (DataView.setUint32 applies ToUint32). -/
def be32 (v : Nat) : List Nat := [v / 16777216 % 256, v / 65536 % 256, v / 256 % 256, v % 256]

/-- Overwrite bytes of `buf` at `off` with `l`; RangeError when the region
does not lie inside the buffer (a DataView store writes nothing then). -/
def setBytes (buf : Buf) (off : Nat) (l : List Nat) : Except String Buf :=
  if off + l.length ≤ buf.length then
    Except.ok (buf.take off ++ l ++ buf.drop (off + l.length))
  else Except.error rangeErrorMsg

/-- DataView.setUint16 big-endian. -/
def setUint16 (buf : Buf) (off v : Nat) : Except String Buf := setBytes buf off (be16 v)

/-- DataView.setUint32 big-endian. -/
def setUint32 (buf : Buf) (off v : Nat) : Except String Buf := setBytes buf off (be32 v)

/-- DataView.setFloat32 big-endian, storing a raw 32-bit pattern. -/
def setFloat32 (buf : Buf) (off bits : Nat) : Except String Buf := setBytes buf off (be32 bits)

/-- UTF-8 bytes of one code point (TextEncoder). -/
def utf8EncodeChar (c : Nat) : List Nat :=
  if c < 0x80 then [c]
  else if c < 0x800 then [0xC0 + c / 64, 0x80 + c % 64]
  else if c < 0x10000 then [0xE0 + c / 4096, 0x80 + c / 64 % 64, 0x80 + c % 64]
  else [0xF0 + c / 262144, 0x80 + c / 4096 % 64, 0x80 + c / 64 % 64, 0x80 + c % 64]

/-- TextEncoder().encode: UTF-8 bytes of a code-point string. -/
def utf8Encode (s : List Nat) : List Nat := s.flatMap utf8EncodeChar

/-- UTF-8 bytes of color.model.padEnd(4, " "). -/
def modelTag : Color → List Nat
  | Color.rgb .. => [82, 71, 66, 32]
  | Color.cmyk .. => [67, 77, 89, 75]
  | Color.gray .. => [71, 114, 97, 121]
  | Color.lab .. => [76, 65, 66, 32]

/-- ASE_COLOR_TYPES.indexOf(color.type): -1 when the type field is undefined. -/
def indexOfColorType : Option ColorType → Int
  | some ColorType.global => 0
  | some ColorType.spot => 1
  | some ColorType.normal => 2
  | none => -1

/-- JS ToUint16 of an integer. -/
def toUint16 (i : Int) : Nat := (i % 65536).toNat

/-- _getColorDataSize: model tag + components + type ordinal. -/
def getColorDataSize : Color → Nat
  | Color.rgb .. => 4 + 4 * 3 + 2
  | Color.lab .. => 4 + 4 * 3 + 2
  | Color.cmyk .. => 4 + 4 * 4 + 2
  | Color.gray .. => 4 + 4 + 2

/-- _writeColorData: model tag, big-endian float components, type ordinal. -/
def writeColorData (buf : Buf) (c : Color) (off : Nat) : Except String Buf := do
  let buf ← setBytes buf off (modelTag c)
  match c with
  | Color.rgb r g b _ t => do
    let buf ← setFloat32 buf (off + 4) r
    let buf ← setFloat32 buf (off + 8) g
    let buf ← setFloat32 buf (off + 12) b
    setUint16 buf (off + 16) (toUint16 (indexOfColorType t))
  | Color.cmyk c1 m y k t => do
    let buf ← setFloat32 buf (off + 4) c1
    let buf ← setFloat32 buf (off + 8) m
    let buf ← setFloat32 buf (off + 12) y
    let buf ← setFloat32 buf (off + 16) k
    setUint16 buf (off + 20) (toUint16 (indexOfColorType t))
  | Color.gray g _ t => do
    let buf ← setFloat32 buf (off + 4) g
    setUint16 buf (off + 8) (toUint16 (indexOfColorType t))
  | Color.lab l a b t => do
    let buf ← setFloat32 buf (off + 4) l
    let buf ← setFloat32 buf (off + 8) a
    let buf ← setFloat32 buf (off + 12) b
    setUint16 buf (off + 16) (toUint16 (indexOfColorType t))

/-- The name loop of _writeColor and _writeGroup: each UTF-8 byte re-emitted
as one big-endian 16-bit unit. -/
def writeWideBytes (buf : Buf) (bytes : List Nat) (off : Nat) : Except String Buf :=
  match bytes with
  | [] => Except.ok buf
  | b :: rest => do
    let buf ← setUint16 buf off b
    writeWideBytes buf rest (off + 2)

/-- _writeColor: block header, name length, widened name, null terminator,
color data; returns the offset after the block. -/
def writeColor (buf : Buf) (name : List Nat) (c : Color) (off : Nat) :
    Except String (Buf × Nat) := do
  let nameBuffer := utf8Encode name
  let colorDataSize := getColorDataSize c
  let blockLength := 2 + (nameBuffer.length + 1) * 2 + colorDataSize
  let buf ← setUint16 buf off 1
  let buf ← setUint32 buf (off + 2) blockLength
  let buf ← setUint16 buf (off + 6) (nameBuffer.length + 1)
  let buf ← writeWideBytes buf nameBuffer (off + 8)
  let buf ← setUint16 buf (off + 8 + nameBuffer.length * 2) 0
  let buf ← writeColorData buf c (off + 8 + nameBuffer.length * 2 + 2)
  pure (buf, off + 6 + blockLength)

/-- _writeGroupEnd: group-end block header with zero length. -/
def writeGroupEnd (buf : Buf) (off : Nat) : Except String (Buf × Nat) := do
  let buf ← setUint16 buf off 0xC002
  let buf ← setUint32 buf (off + 2) 0
  pure (buf, off + 6)

mutual

/-- Number of entries in a subtree rooted at one entry (groups count
themselves plus their descendants). -/
def entryNodes : Entry → Nat
  | Entry.group _ es => 1 + listNodes es
  | _ => 1

/-- Number of entries in a forest, descendants included. -/
def listNodes : List Entry → Nat
  | [] => 0
  | e :: rest => entryNodes e + listNodes rest

end

/-- The group-start block prefix of _writeGroup: block header, name length,
widened name, null terminator.  The children and the matching group-end
follow in writeEntriesFuel. -/
def writeGroupStart (buf : Buf) (name : List Nat) (off : Nat) : Except String (Buf × Nat) := do
  let nameBuffer := utf8Encode name
  let blockLength := 2 + (nameBuffer.length + 1) * 2
  let buf ← setUint16 buf off 0xC001
  let buf ← setUint32 buf (off + 2) blockLength
  let buf ← setUint16 buf (off + 6) (nameBuffer.length + 1)
  let buf ← writeWideBytes buf nameBuffer (off + 8)
  let buf ← setUint16 buf (off + 8 + nameBuffer.length * 2) 0
  pure (buf, off + 6 + blockLength)

/-- _writeEntries (with _writeEntry and _writeGroup folded in), structurally
recursive on a fuel bound that dominates the total entry count: each
recursive call handles strictly fewer entries, so fuel listNodes es + 1 is
never exhausted. -/
def writeEntriesFuel : Nat → Buf → List Entry → Nat → Except String (Buf × Nat)
  | 0, _, _, _ => Except.error rangeErrorMsg
  | _ + 1, buf, [], off => Except.ok (buf, off)
  | fuel + 1, buf, e :: rest, off => do
    let r ←
      match e with
      | Entry.color name c => writeColor buf name c off
      | Entry.group name es => do
        let s ← writeGroupStart buf name off
        let r2 ← writeEntriesFuel fuel s.1 es s.2
        writeGroupEnd r2.1 r2.2
      | Entry.groupEnd => writeGroupEnd buf off
    writeEntriesFuel fuel r.1 rest r.2

/-- _writeEntries: write each entry in turn, threading the offset. -/
def writeEntries (buf : Buf) (es : List Entry) (off : Nat) : Except String (Buf × Nat) :=
  writeEntriesFuel (listNodes es + 1) buf es off

/-- _calculateColorSize of one color entry. -/
def calculateColorSize (name : List Nat) (c : Color) : Nat :=
  6 + 2 + ((utf8Encode name).length + 1) * 2 + getColorDataSize c

mutual

/-- Size contribution of one entry in _calculateTotalSize. -/
def calculateEntrySize : Entry → Nat
  | Entry.color name c => calculateColorSize name c
  | Entry.group name es => 6 + 2 + (utf8Encode name).length * 2 + calculateTotalSize es + 6
  | Entry.groupEnd => 6

/-- _calculateTotalSize: sum of the per-entry sizes. -/
def calculateTotalSize : List Entry → Nat
  | [] => 0
  | e :: rest => calculateEntrySize e + calculateTotalSize rest

end

mutual

/-- Block contribution of one entry in _countBlocks. -/
def countBlocksEntry : Entry → Nat
  | Entry.group _ es => countBlocks es + 2
  | _ => 1

/-- _countBlocks: colors and group-ends count 1, groups count start+end plus children. -/
def countBlocks : List Entry → Nat
  | [] => 0
  | e :: rest => countBlocksEntry e + countBlocks rest

end

/-- _writeHeader: signature, version 1.0, block count. -/
def writeHeader (buf : Buf) (entries : List Entry) : Except String Buf := do
  let buf ← setUint32 buf 0 ASE_SIGNATURE
  let buf ← setUint16 buf 4 1
  let buf ← setUint16 buf 6 0
  setUint32 buf 8 (countBlocks entries)

/-- write: allocate a buffer of the precomputed size, write header then entries. -/
def write (entries : List Entry) : Except String Buf := do
  let headerSize := 12
  let totalSize := headerSize + calculateTotalSize entries
  let buf : Buf := List.replicate totalSize 0
  let buf ← writeHeader buf entries
  let r ← writeEntries buf entries headerSize
  pure r.1

instance exceptDecEq {ε α : Type} [DecidableEq ε] [DecidableEq α] : DecidableEq (Except ε α) :=
  fun a b =>
    match a, b with
    | Except.ok x, Except.ok y =>
      match decEq x y with
      | isTrue h => isTrue (by rw [h])
      | isFalse h => isFalse (by intro hh; injection hh with h2; exact h h2)
    | Except.error x, Except.error y =>
      match decEq x y with
      | isTrue h => isTrue (by rw [h])
      | isFalse h => isFalse (by intro hh; injection hh with h2; exact h h2)
    | Except.ok _, Except.error _ => isFalse (fun h => Except.noConfusion h)
    | Except.error _, Except.ok _ => isFalse (fun h => Except.noConfusion h)

/-- Monadic bind on Except succeeds exactly when both stages succeed. -/
theorem exceptBind_ok {α β : Type} (x : Except String α) (f : α → Except String β) (b : β) :
    (x >>= f) = Except.ok b ↔ ∃ a, x = Except.ok a ∧ f a = Except.ok b := by
  cases x with
  | ok a => simp [Bind.bind, Except.bind]
  | error e => simp [Bind.bind, Except.bind]

/-- pure for Except is Except.ok. -/
theorem exceptPure_ok {α : Type} (a b : α) :
    (pure a : Except String α) = Except.ok b ↔ a = b := by
  constructor
  · intro h; injection h
  · intro h; rw [h]; rfl

/-- Eliminate a successful bind into its two successful stages (works up to
definitional unfolding of the Except monad). -/
theorem bind_ok_elim {α β : Type} {x : Except String α} {f : α → Except String β} {b : β}
    (h : (x >>= f) = Except.ok b) : ∃ a, x = Except.ok a ∧ f a = Except.ok b := by
  cases x with
  | ok a => exact ⟨a, rfl, h⟩
  | error e => exact (Except.noConfusion h)

/-- Eliminate a successful pure (works up to definitional unfolding). -/
theorem pure_ok_elim {α : Type} {a b : α}
    (h : (pure a : Except String α) = Except.ok b) : a = b := by
  have h2 : Except.ok a = Except.ok b := h
  injection h2

/-- getByte succeeds exactly on in-bounds offsets. -/
theorem getByte_ok_iff (buf : Buf) (off : Nat) (b : Nat) :
    getByte buf off = Except.ok b ↔ buf[off]? = some b := by
  unfold getByte
  cases h : buf[off]? with
  | none => simp
  | some x => simp

/-- In-bounds offsets make getByte succeed. -/
theorem getByte_isOk (buf : Buf) (off : Nat) (h : off < buf.length) :
    ∃ b, getByte buf off = Except.ok b := by
  refine ⟨buf[off], ?_⟩
  rw [getByte_ok_iff]
  exact List.getElem?_eq_getElem h

/-- A uint16 read succeeds when both bytes are in bounds. -/
theorem getUint16_isOk (buf : Buf) (off : Nat) (h : off + 1 < buf.length) :
    ∃ v, getUint16 buf off = Except.ok v := by
  obtain ⟨a, ha⟩ := getByte_isOk buf off (by omega)
  obtain ⟨b, hb⟩ := getByte_isOk buf (off + 1) (by omega)
  exact ⟨256 * a + b, by unfold getUint16; rw [ha, hb]; rfl⟩

/-- A uint32 read succeeds when all four bytes are in bounds. -/
theorem getUint32_isOk (buf : Buf) (off : Nat) (h : off + 3 < buf.length) :
    ∃ v, getUint32 buf off = Except.ok v := by
  obtain ⟨a, ha⟩ := getByte_isOk buf off (by omega)
  obtain ⟨b, hb⟩ := getByte_isOk buf (off + 1) (by omega)
  obtain ⟨c, hc⟩ := getByte_isOk buf (off + 2) (by omega)
  obtain ⟨d, hd⟩ := getByte_isOk buf (off + 3) (by omega)
  exact ⟨16777216 * a + 65536 * b + 256 * c + d, by
    unfold getUint32; rw [ha, hb, hc, hd]; rfl⟩

/-- read after write, as the claim decode(encode(T)) speaks of it: none when
either side throws. -/
def readWrite (T : List Entry) : Option (List Entry) :=
  match write T with
  | Except.ok b =>
    match read b with
    | Except.ok l => some l
    | Except.error _ => none
  | Except.error _ => none

/-- write after read on a byte sequence: none when either side throws. -/
def writeOfRead (b : Buf) : Option Buf :=
  match read b with
  | Except.ok l => (write l).toOption
  | Except.error _ => none

/-- An ASCII, depth-1 entry tree: one group holding one color. -/
def c1CexTree : List Entry :=
  [Entry.group [71] [Entry.color [82] (Color.rgb 0 0 0 (rgbToHex 0 0 0) (some ColorType.normal))]]

/-- C1: the claim read(write(T)) = T fails on the ASCII depth-1 tree
c1CexTree: write throws a RangeError (the buffer _calculateGroupSize sizes is
two bytes short of the null terminator _writeGroup writes), so no decoded
tree equal to T is produced. -/
theorem c1_group_roundtrip_crashes :
    readWrite c1CexTree = none ∧ write c1CexTree = Except.error rangeErrorMsg := by
  constructor
  · rfl
  · rfl

/-- The single-group tree on which encode overflows its own buffer. -/
def c2Tree : List Entry := [Entry.group [65] []]

/-- C2: encode computes a 28-byte total for c2Tree but its writes extend to
byte 30 (writeEntries on a 30-byte buffer ends at offset 30), so the final
4-byte store of the group-end block falls outside the allocated buffer and
write fails with a RangeError instead of succeeding for trees with groups. -/
theorem c2_group_write_overflows_buffer :
    12 + calculateTotalSize c2Tree = 28 ∧
    write c2Tree = Except.error rangeErrorMsg ∧
    (writeEntries (List.replicate 30 0) c2Tree 12).map Prod.snd = Except.ok 30 := by
  refine ⟨rfl, rfl, rfl⟩

/-- C3: decode of the empty byte sequence raises past its boundary: the
signature read happens before the try block and its RangeError is not caught. -/
theorem c3_short_input_raises :
    read [] = Except.error rangeErrorMsg := by
  rfl

/-- C3 amended: once the input holds the 8 header bytes the uncaught reads
need, decode never raises: every failure is reported as an empty result. -/
theorem c3_no_uncaught_raise (buf : Buf) (h : 8 ≤ buf.length) :
    ∃ l, read buf = Except.ok l := by
  obtain ⟨s, hs⟩ := getUint32_isOk buf 0 (by omega)
  obtain ⟨ma, hma⟩ := getUint16_isOk buf 4 (by omega)
  obtain ⟨mi, hmi⟩ := getUint16_isOk buf 6 (by omega)
  unfold AseReader.read
  simp only [hs, hma, hmi]
  split
  · exact ⟨[], rfl⟩
  · split
    · exact ⟨[], rfl⟩
    · cases hre : readEntries buf 12 with
      | error e => simp only [hre]; exact ⟨[], rfl⟩
      | ok raw => simp only [hre]; exact ⟨raw.foldl reduceStep [], rfl⟩

/-- Witness for c3_no_uncaught_raise at a concrete 8-byte input. -/
theorem c3_no_uncaught_raise_witness :
    8 ≤ ([65, 83, 69, 70, 0, 1, 0, 0] : Buf).length ∧
    ∃ l, read [65, 83, 69, 70, 0, 1, 0, 0] = Except.ok l :=
  ⟨by decide, c3_no_uncaught_raise [65, 83, 69, 70, 0, 1, 0, 0] (by decide)⟩

/-- Header, group start named by the empty string, group end, then a zero RGB
color block: the color follows the group's end marker. -/
def c4Buf : Buf :=
  [65, 83, 69, 70, 0, 1, 0, 0, 0, 0, 0, 3] ++
  [0xC0, 0x01, 0, 0, 0, 4, 0, 1, 0, 0] ++
  [0xC0, 0x02, 0, 0, 0, 0] ++
  [0, 1, 0, 0, 0, 22, 0, 1, 0, 0, 82, 71, 66, 32,
   0, 0, 0, 0, 0, 0, 0, 0, 0, 0, 0, 0, 0, 0]

/-- C4: in c4Buf the flat stream is group, group-end, color — yet the decoded
tree places the color inside the group, although the group's end marker
preceded it: the group-end does not terminate membership in the group. -/
theorem c4_entry_after_group_end_absorbed :
    readEntries c4Buf 12 =
      Except.ok [Entry.group [] [], Entry.groupEnd,
        Entry.color [] (Color.rgb 0 0 0 [48, 48, 48, 48, 48, 48] (some ColorType.global))] ∧
    read c4Buf =
      Except.ok [Entry.group []
        [Entry.color [] (Color.rgb 0 0 0 [48, 48, 48, 48, 48, 48] (some ColorType.global))]] := by
  refine ⟨rfl, rfl⟩

/-- C4 amended: when the last top-level entry is a group, a group-end marker
is dropped without changing the accumulator at all — so it does not close the
group, and a color arriving right after the marker is still appended into
that group's children. -/
theorem c4_group_end_dropped_not_closing (acc : List Entry) (nm : List Nat)
    (es rest : List Entry) (nm2 : List Nat) (c : Color)
    (h : acc.getLast? = some (Entry.group nm es)) :
    List.foldl reduceStep acc (Entry.groupEnd :: rest) = List.foldl reduceStep acc rest ∧
    reduceStep (reduceStep acc Entry.groupEnd) (Entry.color nm2 c) =
      acc.dropLast ++ [Entry.group nm (es ++ [Entry.color nm2 c])] := by
  have h1 : reduceStep acc Entry.groupEnd = acc := by
    unfold reduceStep
    rw [h]
  constructor
  · rw [List.foldl_cons, h1]
  · rw [h1]
    unfold reduceStep
    rw [h]

/-- Witness for c4_group_end_dropped_not_closing at concrete inputs. -/
theorem c4_group_end_dropped_not_closing_witness :
    List.foldl reduceStep [Entry.group [] []] (Entry.groupEnd :: [Entry.groupEnd]) =
      List.foldl reduceStep [Entry.group [] []] [Entry.groupEnd] ∧
    reduceStep (reduceStep [Entry.group [] []] Entry.groupEnd)
        (Entry.color [99] (Color.gray 0 [48, 48, 48, 48, 48, 48] none)) =
      ([Entry.group [] []] : List Entry).dropLast ++
        [Entry.group []
          ([] ++ [Entry.color [99] (Color.gray 0 [48, 48, 48, 48, 48, 48] none)])] :=
  c4_group_end_dropped_not_closing [Entry.group [] []] [] [] [Entry.groupEnd] [99]
    (Color.gray 0 [48, 48, 48, 48, 48, 48] none) (by decide)

/-- Header announcing one block, then a single group-end block. -/
def c5Buf : Buf := [65, 83, 69, 70, 0, 1, 0, 0, 0, 0, 0, 1, 0xC0, 0x02, 0, 0, 0, 0]

/-- C5: decode of c5Buf returns the GroupEnd marker at the top level of the
output tree — the reduction only drops a group-end when the previous
top-level entry is a group. -/
theorem c5_group_end_escapes_to_output :
    read c5Buf = Except.ok [Entry.groupEnd] := by
  rfl

/-- A flat tree whose single color is named by the non-ASCII code point U+00E9. -/
def c7CexTree : List Entry :=
  [Entry.color [233] (Color.rgb 0 0 0 (rgbToHex 0 0 0) (some ColorType.normal))]

/-- The byte sequence the encoder produces for c7CexTree. -/
def c7Bytes : Buf :=
  match write c7CexTree with
  | Except.ok b => b
  | Except.error _ => []

/-- The byte sequence obtained by decoding c7Bytes and re-encoding. -/
def c7Bytes2 : Buf := (writeOfRead c7Bytes).getD []

/-- C7: c7Bytes is produced by this encoder, yet re-encoding its decode gives
a longer byte sequence (the name is written as UTF-8 bytes widened to 16 bits,
decoded as UTF-16BE into two code points, and re-encoded as four UTF-8 bytes),
so write(read(B)) = B fails for this well-formed encoder output. -/
theorem c7_non_ascii_reencode_differs :
    write c7CexTree = Except.ok c7Bytes ∧
    writeOfRead c7Bytes = some c7Bytes2 ∧
    c7Bytes.length = 44 ∧ c7Bytes2.length = 48 := by
  refine ⟨rfl, rfl, rfl, rfl⟩

/-- Header and one RGB color block whose r component is the float32 2.0
(pattern 0x40000000) and whose g, b are 0.0. -/
def c8Buf : Buf :=
  [65, 83, 69, 70, 0, 1, 0, 0, 0, 0, 0, 1] ++
  [0, 1, 0, 0, 0, 22, 0, 1, 0, 0, 82, 71, 66, 32,
   64, 0, 0, 0, 0, 0, 0, 0, 0, 0, 0, 0, 0, 0]

/-- C8: decoding c8Buf yields an RGB color whose hex field is the 7-character
string 1FE0000 — floor(2.0 * 255) = 510 renders as three hex digits that
padStart(2) does not truncate — refuting the claim that hex always has
exactly 6 digits for every float32 component value. -/
theorem c8_hex_not_always_six_digits :
    read c8Buf = Except.ok
      [Entry.color [] (Color.rgb 1073741824 0 0
        [49, 70, 69, 48, 48, 48, 48] (some ColorType.global))] ∧
    ([49, 70, 69, 48, 48, 48, 48] : List Nat).length = 7 := by
  refine ⟨rfl, rfl⟩

mutual

/-- No GroupEnd occurs inside this entry's (recursive) group children. -/
def entryNoGroupEndInside : Entry → Bool
  | Entry.color _ _ => true
  | Entry.group _ es => childrenClean es
  | Entry.groupEnd => true

/-- A child sequence free of GroupEnd at every level. -/
def childrenClean : List Entry → Bool
  | [] => true
  | e :: rest =>
    (match e with
     | Entry.groupEnd => false
     | _ => true) && entryNoGroupEndInside e && childrenClean rest

end

/-- Shape of entries as the block loop produces them: groups start empty. -/
def parsedShape : Entry → Bool
  | Entry.group _ es => es.isEmpty
  | _ => true

/-- An element of the dropLast is an element of the list. -/
theorem mem_of_mem_dropLast {α : Type} (l : List α) (a : α) (h : a ∈ l.dropLast) : a ∈ l := by
  induction l with
  | nil => cases h
  | cons x rest ih =>
    cases rest with
    | nil => cases h
    | cons y t =>
      rw [List.dropLast_cons₂] at h
      rcases List.mem_cons.mp h with h1 | h2
      · exact h1 ▸ List.mem_cons_self x _
      · exact List.mem_cons_of_mem x (ih h2)

/-- The value of getLast? is an element of the list. -/
theorem mem_of_getLast?_eq {α : Type} (l : List α) (a : α) (h : l.getLast? = some a) : a ∈ l := by
  induction l with
  | nil => cases h
  | cons x rest ih =>
    cases rest with
    | nil =>
      simp [List.getLast?] at h
      exact h ▸ List.mem_cons_self x _
    | cons y t =>
      rw [List.getLast?_cons_cons] at h
      exact List.mem_cons_of_mem x (ih h)

/-- childrenClean distributes over append. -/
theorem childrenClean_append (l1 l2 : List Entry) :
    childrenClean (l1 ++ l2) = (childrenClean l1 && childrenClean l2) := by
  induction l1 with
  | nil => simp [childrenClean]
  | cons e rest ih =>
    simp only [List.cons_append, childrenClean, List.append_eq, ih, Bool.and_assoc]

/-- A clean singleton child sequence. -/
theorem childrenClean_singleton (x : Entry)
    (h1 : (match x with
           | Entry.groupEnd => false
           | _ => true) = true)
    (h2 : entryNoGroupEndInside x = true) : childrenClean [x] = true := by
  simp [childrenClean, h1, h2]

/-- Entries of parsed shape carry no GroupEnd inside. -/
theorem parsedShape_noGroupEndInside (e : Entry) (h : parsedShape e = true) :
    entryNoGroupEndInside e = true := by
  cases e with
  | color nm c => rfl
  | groupEnd => rfl
  | group nm es =>
    simp only [parsedShape, List.isEmpty_iff] at h
    subst h
    rfl

/-- One reduction step preserves group-children cleanliness when the incoming
entry has the parsed shape. -/
theorem reduceStep_clean (acc : List Entry) (x : Entry)
    (hacc : ∀ e ∈ acc, entryNoGroupEndInside e = true) (hx : parsedShape x = true) :
    ∀ e ∈ reduceStep acc x, entryNoGroupEndInside e = true := by
  intro e he
  unfold reduceStep at he
  cases hl : acc.getLast? with
  | none =>
    rw [hl] at he
    rcases List.mem_append.mp he with h1 | h2
    · exact hacc e h1
    · rw [List.mem_singleton.mp h2]
      exact parsedShape_noGroupEndInside x hx
  | some last =>
    rw [hl] at he
    cases last with
    | color nm c =>
      rcases List.mem_append.mp he with h1 | h2
      · exact hacc e h1
      · rw [List.mem_singleton.mp h2]
        exact parsedShape_noGroupEndInside x hx
    | groupEnd =>
      rcases List.mem_append.mp he with h1 | h2
      · exact hacc e h1
      · rw [List.mem_singleton.mp h2]
        exact parsedShape_noGroupEndInside x hx
    | group nm es =>
      have hgrp : childrenClean es = true :=
        hacc (Entry.group nm es) (mem_of_getLast?_eq acc _ hl)
      cases x with
      | groupEnd => exact hacc e he
      | color nm2 c2 =>
        rcases List.mem_append.mp he with h1 | h2
        · exact hacc e (mem_of_mem_dropLast acc e h1)
        · rw [List.mem_singleton.mp h2]
          show childrenClean (es ++ [Entry.color nm2 c2]) = true
          rw [childrenClean_append, hgrp, Bool.true_and]
          exact childrenClean_singleton _ rfl (parsedShape_noGroupEndInside _ hx)
      | group nm2 es2 =>
        rcases List.mem_append.mp he with h1 | h2
        · exact hacc e (mem_of_mem_dropLast acc e h1)
        · rw [List.mem_singleton.mp h2]
          show childrenClean (es ++ [Entry.group nm2 es2]) = true
          rw [childrenClean_append, hgrp, Bool.true_and]
          exact childrenClean_singleton _ rfl (parsedShape_noGroupEndInside _ hx)

/-- The whole reduction pass preserves group-children cleanliness. -/
theorem foldl_reduceStep_clean (raw : List Entry) :
    ∀ acc, (∀ e ∈ raw, parsedShape e = true) →
      (∀ e ∈ acc, entryNoGroupEndInside e = true) →
      ∀ e ∈ List.foldl reduceStep acc raw, entryNoGroupEndInside e = true := by
  induction raw with
  | nil => intro acc _ hacc e he; exact hacc e he
  | cons x rest ih =>
    intro acc hraw hacc
    rw [List.foldl_cons]
    exact ih (reduceStep acc x)
      (fun e he => hraw e (List.mem_cons_of_mem x he))
      (reduceStep_clean acc x hacc (hraw x (List.mem_cons_self x rest)))

/-- A successful _readColor parse always yields a color entry. -/
theorem readColor_shape (buf : Buf) (off : Nat) (e : Entry)
    (h : readColor buf off = Except.ok e) : ∃ nm c, e = Entry.color nm c := by
  unfold readColor at h
  obtain ⟨nl, _, h⟩ := bind_ok_elim h
  obtain ⟨nm, _, h⟩ := bind_ok_elim h
  obtain ⟨mb, _, h⟩ := bind_ok_elim h
  simp only [] at h
  split_ifs at h
  · obtain ⟨r, _, h⟩ := bind_ok_elim h
    obtain ⟨g, _, h⟩ := bind_ok_elim h
    obtain ⟨b, _, h⟩ := bind_ok_elim h
    obtain ⟨i, _, h⟩ := bind_ok_elim h
    exact ⟨_, _, (pure_ok_elim h).symm⟩
  · obtain ⟨c, _, h⟩ := bind_ok_elim h
    obtain ⟨m, _, h⟩ := bind_ok_elim h
    obtain ⟨y, _, h⟩ := bind_ok_elim h
    obtain ⟨k, _, h⟩ := bind_ok_elim h
    obtain ⟨i, _, h⟩ := bind_ok_elim h
    exact ⟨_, _, (pure_ok_elim h).symm⟩
  · obtain ⟨g, _, h⟩ := bind_ok_elim h
    obtain ⟨i, _, h⟩ := bind_ok_elim h
    exact ⟨_, _, (pure_ok_elim h).symm⟩
  · obtain ⟨l0, _, h⟩ := bind_ok_elim h
    obtain ⟨a, _, h⟩ := bind_ok_elim h
    obtain ⟨b, _, h⟩ := bind_ok_elim h
    obtain ⟨i, _, h⟩ := bind_ok_elim h
    exact ⟨_, _, (pure_ok_elim h).symm⟩

/-- A successful _readGroup parse yields a group entry with empty children. -/
theorem readGroup_shape (buf : Buf) (off : Nat) (e : Entry)
    (h : readGroup buf off = Except.ok e) : ∃ nm, e = Entry.group nm [] := by
  unfold readGroup at h
  obtain ⟨nl, _, h⟩ := bind_ok_elim h
  obtain ⟨nm, _, h⟩ := bind_ok_elim h
  exact ⟨nm, (pure_ok_elim h).symm⟩

/-- Every entry the block loop yields has the parsed shape. -/
theorem readEntriesAux_shape (buf : Buf) :
    ∀ n off l, readEntriesAux buf n off = Except.ok l → ∀ e ∈ l, parsedShape e = true := by
  intro n
  induction n with
  | zero =>
    intro off l h e he
    unfold readEntriesAux at h
    injection h with h2
    subst h2
    cases he
  | succ k ih =>
    intro off l h e he
    unfold readEntriesAux at h
    obtain ⟨t, _, h⟩ := bind_ok_elim h
    obtain ⟨bl, _, h⟩ := bind_ok_elim h
    simp only [] at h
    split_ifs at h
    · obtain ⟨ent, h3, h⟩ := bind_ok_elim h
      obtain ⟨rest, h4, h⟩ := bind_ok_elim h
      have h5 := pure_ok_elim h
      subst h5
      rcases List.mem_cons.mp he with rfl | hmem
      · obtain ⟨nm, c, rfl⟩ := readColor_shape buf (off + 6) e h3
        rfl
      · exact ih _ rest h4 e hmem
    · obtain ⟨ent, h3, h⟩ := bind_ok_elim h
      obtain ⟨rest, h4, h⟩ := bind_ok_elim h
      have h5 := pure_ok_elim h
      subst h5
      rcases List.mem_cons.mp he with rfl | hmem
      · obtain ⟨nm, rfl⟩ := readGroup_shape buf (off + 6) e h3
        rfl
      · exact ih _ rest h4 e hmem
    · obtain ⟨ent, h3, h⟩ := bind_ok_elim h
      obtain ⟨rest, h4, h⟩ := bind_ok_elim h
      have h5 := pure_ok_elim h
      subst h5
      rcases List.mem_cons.mp he with rfl | hmem
      · rw [← pure_ok_elim h3]
        rfl
      · exact ih _ rest h4 e hmem
    · exact (Except.noConfusion h)

/-- C5 amended: the tree decode returns never holds a GroupEnd inside any
group's child sequence, at any depth (the counterexample shows GroupEnd can
still surface at the top level). -/
theorem c5_no_group_end_inside_groups (buf : Buf) (l : List Entry)
    (h : read buf = Except.ok l) : l.all entryNoGroupEndInside = true := by
  rw [List.all_eq_true]
  intro e he
  unfold AseReader.read at h
  split at h
  · exact (Except.noConfusion h)
  · split at h
    · injection h with h2
      subst h2
      cases he
    · split at h
      · exact (Except.noConfusion h)
      · split at h
        · exact (Except.noConfusion h)
        · split at h
          · injection h with h2
            subst h2
            cases he
          · cases hre : readEntries buf 12 with
            | error err =>
              rw [hre] at h
              injection h with h2
              subst h2
              cases he
            | ok raw =>
              rw [hre] at h
              injection h with h2
              subst h2
              unfold readEntries at hre
              obtain ⟨n, hn, hraw⟩ := bind_ok_elim hre
              exact foldl_reduceStep_clean raw []
                (fun x hx => readEntriesAux_shape buf n 12 raw hraw x hx)
                (fun x hx => absurd hx (List.not_mem_nil x)) e he

/-- Witness for c5_no_group_end_inside_groups on a concrete decode. -/
theorem c5_no_group_end_inside_groups_witness :
    ([Entry.groupEnd] : List Entry).all entryNoGroupEndInside = true :=
  c5_no_group_end_inside_groups c5Buf [Entry.groupEnd] (by rfl)

/-- The color block at `off` parses far enough to reveal its model tag, and
that tag is outside the four supported models. -/
def colorModelBad (buf : Buf) (off : Nat) : Bool :=
  match getUint16 buf off with
  | Except.error _ => false
  | Except.ok nameLength =>
    match readUTF16BE buf (off + 2) nameLength with
    | Except.error _ => false
    | Except.ok _ =>
      match getBytesSub buf (off + 2 + nameLength * 2) 4 with
      | Except.error _ => false
      | Except.ok mb =>
        let model := jsTrim (utf8Decode mb)
        !(decide (model = [82, 71, 66] ∨ model = [67, 77, 89, 75] ∨
          model = [71, 114, 97, 121] ∨ model = [76, 65, 66]))

/-- Walking the block stream as the parser does, some reached block either
has a type outside 0x0001 / 0xC001 / 0xC002 or is a color block declaring an
unsupported model (blocks failing for other reasons stop the walk). -/
def hasUnsupportedAux (buf : Buf) : Nat → Nat → Bool
  | 0, _ => false
  | n + 1, off =>
    match getUint16 buf off, getUint32 buf (off + 2) with
    | Except.ok t, Except.ok bl =>
      if t = 1 then
        colorModelBad buf (off + 6) ||
          (match readColor buf (off + 6) with
           | Except.ok _ => hasUnsupportedAux buf n (off + 6 + bl)
           | Except.error _ => false)
      else if t = 0xC001 then
        (match readGroup buf (off + 6) with
         | Except.ok _ => hasUnsupportedAux buf n (off + 6 + bl)
         | Except.error _ => false)
      else if t = 0xC002 then hasUnsupportedAux buf n (off + 6 + bl)
      else true
    | _, _ => false

/-- The block stream of the buffer contains an unsupported block type or an
unsupported color model, at a block the parser reaches. -/
def hasUnsupportedBlock (buf : Buf) : Bool :=
  match getUint32 buf 8 with
  | Except.ok n => hasUnsupportedAux buf n 12
  | Except.error _ => false

/-- Bind on a success is application (simp-oriented form). -/
theorem except_bind_ok {α β : Type} (a : α) (f : α → Except String β) :
    ((Except.ok a : Except String α) >>= f) = f a := rfl

/-- Bind on a failure is that failure (simp-oriented form). -/
theorem except_bind_error {α β : Type} (m : String) (f : α → Except String β) :
    ((Except.error m : Except String α) >>= f) = Except.error m := rfl

/-- A bad model tag makes _readColor fail. -/
theorem colorModelBad_readColor (buf : Buf) (off : Nat)
    (h : colorModelBad buf off = true) :
    readColor buf off = Except.error "Unsupported color model" := by
  unfold colorModelBad at h
  unfold readColor
  cases h1 : getUint16 buf off with
  | error m => rw [h1] at h; simp at h
  | ok nameLength =>
    simp only [h1] at h
    simp only [h1, except_bind_ok]
    cases h2 : readUTF16BE buf (off + 2) nameLength with
    | error m => simp only [h2] at h; simp at h
    | ok name =>
      simp only [h2] at h
      simp only [h2, except_bind_ok]
      cases h3 : getBytesSub buf (off + 2 + nameLength * 2) 4 with
      | error m => simp only [h3] at h; simp at h
      | ok mb =>
        simp only [h3] at h
        simp only [h3, except_bind_ok]
        simp only [Bool.not_eq_eq_eq_not, Bool.not_true, decide_eq_false_iff_not] at h
        push_neg at h
        obtain ⟨hm1, hm2, hm3, hm4⟩ := h
        simp only [if_neg hm1, if_neg hm2, if_neg hm3, if_neg hm4]

/-- An unsupported block in the stream makes the block loop fail. -/
theorem hasUnsupportedAux_error (buf : Buf) :
    ∀ n off, hasUnsupportedAux buf n off = true →
      ∃ m, readEntriesAux buf n off = Except.error m := by
  intro n
  induction n with
  | zero => intro off h; exact absurd h (by simp [hasUnsupportedAux])
  | succ k ih =>
    intro off h
    unfold hasUnsupportedAux at h
    unfold readEntriesAux
    cases h1 : getUint16 buf off with
    | error m => rw [h1] at h; simp at h
    | ok t =>
      rw [h1] at h
      simp only [h1, except_bind_ok]
      cases h2 : getUint32 buf (off + 2) with
      | error m => rw [h2] at h; simp at h
      | ok bl =>
        rw [h2] at h
        simp only [h2, except_bind_ok]
        simp only [] at h ⊢
        split_ifs at h ⊢ with ht1 ht2 ht3
        · rcases Bool.or_eq_true_iff.mp h with hbad | hrec
          · rw [colorModelBad_readColor buf (off + 6) hbad]
            exact ⟨_, rfl⟩
          · cases h4 : readColor buf (off + 6) with
            | error m => exact ⟨m, rfl⟩
            | ok ent =>
              rw [h4] at hrec
              try simp only [] at hrec
              obtain ⟨m, hm⟩ := ih (off + 6 + bl) hrec
              try simp only [except_bind_ok]
              rw [hm]
              exact ⟨m, rfl⟩
        · cases h4 : readGroup buf (off + 6) with
          | error m => exact ⟨m, rfl⟩
          | ok ent =>
            rw [h4] at h
            try simp only [] at h
            obtain ⟨m, hm⟩ := ih (off + 6 + bl) h
            try simp only [except_bind_ok]
            rw [hm]
            exact ⟨m, rfl⟩
        · obtain ⟨m, hm⟩ := ih (off + 6 + bl) h
          try simp only [except_bind_ok]
          rw [hm]
          exact ⟨m, rfl⟩
        · exact ⟨_, rfl⟩

/-- C6: under a valid header, any unsupported block type or unsupported color
model in the block stream aborts the whole decode: the error is caught and
the result is the empty entry sequence, never a partial prefix. -/
theorem c6_unsupported_aborts_whole_decode (buf : Buf)
    (hsig : getUint32 buf 0 = Except.ok ASE_SIGNATURE)
    (hmaj : getUint16 buf 4 = Except.ok 1)
    (hmin : getUint16 buf 6 = Except.ok 0)
    (hbad : hasUnsupportedBlock buf = true) :
    read buf = Except.ok [] := by
  unfold hasUnsupportedBlock at hbad
  cases hn : getUint32 buf 8 with
  | error m => rw [hn] at hbad; simp at hbad
  | ok n =>
    rw [hn] at hbad
    try simp only [] at hbad
    obtain ⟨m, herr⟩ := hasUnsupportedAux_error buf n 12 hbad
    have hre : readEntries buf 12 = Except.error m := by
      unfold readEntries
      rw [hn]
      simp only [except_bind_ok]
      exact herr
    unfold AseReader.read
    simp only [hsig]
    rw [if_neg (fun hh => hh rfl)]
    simp only [hmaj, hmin]
    rw [if_neg (by simp)]
    simp only [hre]

/-- Header and a single color block declaring the model tag XYZ. -/
def c6WitnessBuf : Buf :=
  [65, 83, 69, 70, 0, 1, 0, 0, 0, 0, 0, 1] ++
  [0, 1, 0, 0, 0, 22, 0, 1, 0, 0, 88, 89, 90, 32,
   0, 0, 0, 0, 0, 0, 0, 0, 0, 0, 0, 0, 0, 0]

/-- Witness for c6_unsupported_aborts_whole_decode at the XYZ-model input. -/
theorem c6_unsupported_aborts_whole_decode_witness :
    read c6WitnessBuf = Except.ok [] :=
  c6_unsupported_aborts_whole_decode c6WitnessBuf (by rfl) (by rfl) (by rfl) (by rfl)

/-- Length is preserved by an in-bounds splice. -/
theorem splice_length (buf : Buf) (off n : Nat) (L : List Nat)
    (hL : L.length = n) (hb : off + n ≤ buf.length) :
    (buf.take off ++ L ++ buf.drop (off + n)).length = buf.length := by
  simp only [List.length_append, List.length_take, List.length_drop, hL]
  omega

/-- A splice leaves the prefix before it unchanged. -/
theorem splice_take_start (buf : Buf) (off n : Nat) (L : List Nat)
    (hL : L.length = n) (hb : off + n ≤ buf.length) :
    (buf.take off ++ L ++ buf.drop (off + n)).take off = buf.take off := by
  have h1 : (buf.take off).length = off := by
    simp only [List.length_take]
    omega
  rw [List.append_assoc, List.take_left' h1]

/-- Taking up to the end of an in-bounds splice yields prefix plus payload. -/
theorem splice_take_all (buf : Buf) (off n : Nat) (L : List Nat)
    (hL : L.length = n) (hb : off + n ≤ buf.length) :
    (buf.take off ++ L ++ buf.drop (off + n)).take (off + n) = buf.take off ++ L := by
  have h1 : (buf.take off ++ L).length = off + n := by
    simp only [List.length_append, List.length_take, hL]
    omega
  rw [List.take_left' h1]

/-- Dropping to the start of an in-bounds splice yields payload plus suffix. -/
theorem splice_drop_start (buf : Buf) (off n : Nat) (L : List Nat)
    (hL : L.length = n) (hb : off + n ≤ buf.length) :
    (buf.take off ++ L ++ buf.drop (off + n)).drop off = L ++ buf.drop (off + n) := by
  have h1 : (buf.take off).length = off := by
    simp only [List.length_take]
    omega
  rw [List.append_assoc, List.drop_left' h1]

/-- Dropping past an in-bounds splice yields the original suffix. -/
theorem splice_drop_all (buf : Buf) (off n : Nat) (L : List Nat)
    (hL : L.length = n) (hb : off + n ≤ buf.length) :
    (buf.take off ++ L ++ buf.drop (off + n)).drop (off + n) = buf.drop (off + n) := by
  have h1 : (buf.take off ++ L).length = off + n := by
    simp only [List.length_append, List.length_take, hL]
    omega
  rw [List.drop_left' h1]

/-- Dropping at or past the end of an in-bounds splice sees the original buffer. -/
theorem splice_drop_ge (buf : Buf) (off n : Nat) (L : List Nat) (k : Nat)
    (hL : L.length = n) (hk : off + n ≤ k) (hb : off + n ≤ buf.length) :
    (buf.take off ++ L ++ buf.drop (off + n)).drop k = buf.drop k := by
  have h2 : (buf.take off ++ L ++ buf.drop (off + n)).drop k =
      ((buf.take off ++ L ++ buf.drop (off + n)).drop (off + n)).drop (k - (off + n)) := by
    rw [List.drop_drop]
    congr 1
    omega
  rw [h2, splice_drop_all buf off n L hL hb, List.drop_drop]
  congr 1
  omega

/-- An in-bounds store succeeds and splices its bytes in. -/
theorem setBytes_spec (buf : Buf) (off : Nat) (l : List Nat) (n : Nat)
    (hn : l.length = n) (hb : off + n ≤ buf.length) :
    setBytes buf off l = Except.ok (buf.take off ++ l ++ buf.drop (off + n)) := by
  have h1 : off + l.length ≤ buf.length := by omega
  unfold setBytes
  rw [if_pos h1, hn]

/-- A store directly after a splice extends the spliced payload. -/
theorem setBytes_chain (buf : Buf) (off : Nat) (L l2 : List Nat) (n m off2 : Nat)
    (hn : L.length = n) (hm : l2.length = m) (ho : off2 = off + n)
    (hb : off + n + m ≤ buf.length) :
    setBytes (buf.take off ++ L ++ buf.drop (off + n)) off2 l2 =
      Except.ok (buf.take off ++ (L ++ l2) ++ buf.drop (off + n + m)) := by
  subst ho
  have hblen : off + n ≤ buf.length := by omega
  have hs : ((buf.take off ++ L ++ buf.drop (off + n)) : Buf).length = buf.length :=
    splice_length buf off n L hn hblen
  rw [setBytes_spec _ _ _ m hm (by omega)]
  rw [splice_take_all buf off n L hn hblen]
  rw [splice_drop_ge buf off n L (off + n + m) hn (by omega) hblen]
  simp only [List.append_assoc]

/-- The name bytes as the writer emits them: each UTF-8 byte as a 16-bit unit. -/
def wideBytes (bytes : List Nat) : List Nat := bytes.flatMap be16

/-- Widened names take two bytes per input byte. -/
theorem wideBytes_length (bytes : List Nat) : (wideBytes bytes).length = 2 * bytes.length := by
  induction bytes with
  | nil => rfl
  | cons b rest ih =>
    simp only [wideBytes, List.flatMap_cons] at ih ⊢
    simp only [List.length_append, ih, be16, List.length_cons, List.length_nil]
    omega

/-- The name loop writes exactly the widened bytes. -/
theorem writeWideBytes_spec (bytes : List Nat) : ∀ (buf : Buf) (off : Nat),
    off + 2 * bytes.length ≤ buf.length →
    writeWideBytes buf bytes off =
      Except.ok (buf.take off ++ wideBytes bytes ++ buf.drop (off + 2 * bytes.length)) := by
  induction bytes with
  | nil =>
    intro buf off h
    unfold writeWideBytes
    simp only [wideBytes, List.flatMap_nil, List.append_nil, List.length_nil,
      Nat.mul_zero, Nat.add_zero, List.take_append_drop]
  | cons b rest ih =>
    intro buf off h
    simp only [List.length_cons] at h
    unfold writeWideBytes
    rw [show setUint16 buf off b = setBytes buf off (be16 b) from rfl]
    rw [setBytes_spec buf off (be16 b) 2 (by simp [be16]) (by omega)]
    simp only [except_bind_ok]
    have hblen : off + 2 ≤ buf.length := by omega
    have hs : ((buf.take off ++ be16 b ++ buf.drop (off + 2)) : Buf).length = buf.length :=
      splice_length buf off 2 (be16 b) (by simp [be16]) hblen
    rw [ih _ (off + 2) (by rw [hs]; omega)]
    rw [splice_take_all buf off 2 (be16 b) (by simp [be16]) hblen]
    rw [splice_drop_ge buf off 2 (be16 b) (off + 2 + 2 * rest.length) (by simp [be16])
      (by omega) hblen]
    have harith : off + 2 + 2 * rest.length = off + 2 * (rest.length + 1) := by omega
    rw [harith]
    simp only [wideBytes, List.flatMap_cons, List.append_assoc, List.length_cons]

/-- splice_take_all with the cut position given by an arithmetic equation. -/
theorem splice_take_at (buf : Buf) (off n : Nat) (L : List Nat) (k : Nat)
    (hL : L.length = n) (hk : k = off + n) (hb : off + n ≤ buf.length) :
    (buf.take off ++ L ++ buf.drop (off + n)).take k = buf.take off ++ L := by
  subst hk
  exact splice_take_all buf off n L hL hb

/-- The type field of a color value. -/
def colorTypeOf : Color → Option ColorType
  | Color.rgb _ _ _ _ t => t
  | Color.cmyk _ _ _ _ t => t
  | Color.gray _ _ t => t
  | Color.lab _ _ _ t => t

/-- The big-endian component bytes of a color, in block order. -/
def compBytes : Color → List Nat
  | Color.rgb r g b _ _ => be32 r ++ be32 g ++ be32 b
  | Color.cmyk c m y k _ => be32 c ++ be32 m ++ be32 y ++ be32 k
  | Color.gray g _ _ => be32 g
  | Color.lab l a b _ => be32 l ++ be32 a ++ be32 b

/-- The byte image of _writeColorData: model tag, components, type ordinal. -/
def colorDataBytes (c : Color) : List Nat :=
  modelTag c ++ compBytes c ++ be16 (toUint16 (indexOfColorType (colorTypeOf c)))

/-- The color data bytes have exactly the size _getColorDataSize computes. -/
theorem colorDataBytes_length (c : Color) :
    (colorDataBytes c).length = getColorDataSize c := by
  cases c <;> simp [colorDataBytes, modelTag, compBytes, be16, be32, getColorDataSize]

/-- _writeColorData writes exactly the color data bytes. -/
theorem writeColorData_spec (buf : Buf) (c : Color) (off : Nat)
    (h : off + getColorDataSize c ≤ buf.length) :
    writeColorData buf c off = Except.ok
      (buf.take off ++ colorDataBytes c ++ buf.drop (off + getColorDataSize c)) := by
  cases c with
  | rgb r g b hx t =>
    simp only [getColorDataSize] at h
    unfold writeColorData
    simp only [setFloat32, setUint16]
    rw [setBytes_spec buf off (modelTag (Color.rgb r g b hx t)) 4 (by simp [modelTag])
      (by omega)]
    simp only [except_bind_ok]
    rw [setBytes_chain buf off _ (be32 r) 4 4 (off + 4) (by simp [modelTag]) (by simp [be32])
      rfl (by omega)]
    simp only [except_bind_ok]
    rw [setBytes_chain buf off _ (be32 g) 8 4 (off + 8) (by simp [modelTag, be32])
      (by simp [be32]) rfl (by omega)]
    simp only [except_bind_ok]
    rw [setBytes_chain buf off _ (be32 b) 12 4 (off + 12) (by simp [modelTag, be32])
      (by simp [be32]) rfl (by omega)]
    simp only [except_bind_ok]
    rw [setBytes_chain buf off _ (be16 (toUint16 (indexOfColorType t))) 16 2 (off + 16)
      (by simp [modelTag, be32]) (by simp [be16]) rfl (by omega)]
    simp only [colorDataBytes, compBytes, modelTag, colorTypeOf, List.append_assoc]
    rw [show off + getColorDataSize (Color.rgb r g b hx t) = off + 16 + 2 from by
      simp only [getColorDataSize]]
  | cmyk c1 m y k t =>
    simp only [getColorDataSize] at h
    unfold writeColorData
    simp only [setFloat32, setUint16]
    rw [setBytes_spec buf off (modelTag (Color.cmyk c1 m y k t)) 4 (by simp [modelTag])
      (by omega)]
    simp only [except_bind_ok]
    rw [setBytes_chain buf off _ (be32 c1) 4 4 (off + 4) (by simp [modelTag]) (by simp [be32])
      rfl (by omega)]
    simp only [except_bind_ok]
    rw [setBytes_chain buf off _ (be32 m) 8 4 (off + 8) (by simp [modelTag, be32])
      (by simp [be32]) rfl (by omega)]
    simp only [except_bind_ok]
    rw [setBytes_chain buf off _ (be32 y) 12 4 (off + 12) (by simp [modelTag, be32])
      (by simp [be32]) rfl (by omega)]
    simp only [except_bind_ok]
    rw [setBytes_chain buf off _ (be32 k) 16 4 (off + 16) (by simp [modelTag, be32])
      (by simp [be32]) rfl (by omega)]
    simp only [except_bind_ok]
    rw [setBytes_chain buf off _ (be16 (toUint16 (indexOfColorType t))) 20 2 (off + 20)
      (by simp [modelTag, be32]) (by simp [be16]) rfl (by omega)]
    simp only [colorDataBytes, compBytes, modelTag, colorTypeOf, List.append_assoc]
    rw [show off + getColorDataSize (Color.cmyk c1 m y k t) = off + 20 + 2 from by
      simp only [getColorDataSize]]
  | gray g hx t =>
    simp only [getColorDataSize] at h
    unfold writeColorData
    simp only [setFloat32, setUint16]
    rw [setBytes_spec buf off (modelTag (Color.gray g hx t)) 4 (by simp [modelTag])
      (by omega)]
    simp only [except_bind_ok]
    rw [setBytes_chain buf off _ (be32 g) 4 4 (off + 4) (by simp [modelTag]) (by simp [be32])
      rfl (by omega)]
    simp only [except_bind_ok]
    rw [setBytes_chain buf off _ (be16 (toUint16 (indexOfColorType t))) 8 2 (off + 8)
      (by simp [modelTag, be32]) (by simp [be16]) rfl (by omega)]
    simp only [colorDataBytes, compBytes, modelTag, colorTypeOf, List.append_assoc]
    rw [show off + getColorDataSize (Color.gray g hx t) = off + 8 + 2 from by
      simp only [getColorDataSize]]
  | lab l a b t =>
    simp only [getColorDataSize] at h
    unfold writeColorData
    simp only [setFloat32, setUint16]
    rw [setBytes_spec buf off (modelTag (Color.lab l a b t)) 4 (by simp [modelTag])
      (by omega)]
    simp only [except_bind_ok]
    rw [setBytes_chain buf off _ (be32 l) 4 4 (off + 4) (by simp [modelTag]) (by simp [be32])
      rfl (by omega)]
    simp only [except_bind_ok]
    rw [setBytes_chain buf off _ (be32 a) 8 4 (off + 8) (by simp [modelTag, be32])
      (by simp [be32]) rfl (by omega)]
    simp only [except_bind_ok]
    rw [setBytes_chain buf off _ (be32 b) 12 4 (off + 12) (by simp [modelTag, be32])
      (by simp [be32]) rfl (by omega)]
    simp only [except_bind_ok]
    rw [setBytes_chain buf off _ (be16 (toUint16 (indexOfColorType t))) 16 2 (off + 16)
      (by simp [modelTag, be32]) (by simp [be16]) rfl (by omega)]
    simp only [colorDataBytes, compBytes, modelTag, colorTypeOf, List.append_assoc]
    rw [show off + getColorDataSize (Color.lab l a b t) = off + 16 + 2 from by
      simp only [getColorDataSize]]

/-- setBytes_chain with the suffix position given by an arithmetic equation. -/
theorem setBytes_chain' (buf : Buf) (off : Nat) (L l2 : List Nat) (n m off2 j : Nat)
    (hn : L.length = n) (hm : l2.length = m) (ho : off2 = off + n) (hj : j = off + n)
    (hb : off + n + m ≤ buf.length) :
    setBytes (buf.take off ++ L ++ buf.drop j) off2 l2 =
      Except.ok (buf.take off ++ (L ++ l2) ++ buf.drop (off + n + m)) := by
  subst hj
  exact setBytes_chain buf off L l2 n m off2 hn hm ho hb

/-- splice_take_at with the suffix position given by an arithmetic equation. -/
theorem splice_take_at' (buf : Buf) (off n : Nat) (L : List Nat) (k j : Nat)
    (hL : L.length = n) (hk : k = off + n) (hj : j = off + n) (hb : off + n ≤ buf.length) :
    (buf.take off ++ L ++ buf.drop j).take k = buf.take off ++ L := by
  subst hj
  exact splice_take_at buf off n L k hL hk hb

/-- splice_drop_ge with the suffix position given by an arithmetic equation. -/
theorem splice_drop_ge' (buf : Buf) (off n : Nat) (L : List Nat) (k j : Nat)
    (hL : L.length = n) (hk : off + n ≤ k) (hj : j = off + n) (hb : off + n ≤ buf.length) :
    (buf.take off ++ L ++ buf.drop j).drop k = buf.drop k := by
  subst hj
  exact splice_drop_ge buf off n L k hL hk hb

/-- Buffer length is preserved by a splice, suffix position by equation. -/
theorem splice_length' (buf : Buf) (off n : Nat) (L : List Nat) (j : Nat)
    (hL : L.length = n) (hj : j = off + n) (hb : off + n ≤ buf.length) :
    (buf.take off ++ L ++ buf.drop j).length = buf.length := by
  subst hj
  exact splice_length buf off n L hL hb

/-- The byte image of _writeGroupEnd. -/
def groupEndBytes : List Nat := be16 0xC002 ++ be32 0

/-- _writeGroupEnd writes exactly the group-end block bytes. -/
theorem writeGroupEnd_spec (buf : Buf) (off : Nat) (h : off + 6 ≤ buf.length) :
    writeGroupEnd buf off =
      Except.ok (buf.take off ++ groupEndBytes ++ buf.drop (off + 6), off + 6) := by
  simp only [writeGroupEnd, setUint16, setUint32]
  rw [setBytes_spec buf off (be16 0xC002) 2 (by simp [be16]) (by omega)]
  simp only [except_bind_ok]
  rw [setBytes_chain' buf off _ (be32 0) 2 4 (off + 2) (off + 2) (by simp [be16])
    (by simp [be32]) rfl rfl (by omega)]
  simp only [groupEndBytes, List.append_assoc, except_bind_ok]
  rfl

/-- The byte image of _writeColor: block header, name length, widened name,
null terminator, color data. -/
def colorBlockBytes (name : List Nat) (c : Color) : List Nat :=
  be16 1 ++ be32 (2 + ((utf8Encode name).length + 1) * 2 + getColorDataSize c) ++
    be16 ((utf8Encode name).length + 1) ++ wideBytes (utf8Encode name) ++ be16 0 ++
    colorDataBytes c

/-- The color block bytes have exactly the size _calculateColorSize computes. -/
theorem colorBlockBytes_length (name : List Nat) (c : Color) :
    (colorBlockBytes name c).length = calculateColorSize name c := by
  simp only [colorBlockBytes, List.length_append, wideBytes_length, colorDataBytes_length,
    calculateColorSize, be16, be32, List.length_cons, List.length_nil]
  omega

/-- _writeColor writes exactly the color block bytes and lands just after them. -/
theorem writeColor_spec (buf : Buf) (name : List Nat) (c : Color) (off : Nat)
    (h : off + calculateColorSize name c ≤ buf.length) :
    writeColor buf name c off = Except.ok
      (buf.take off ++ colorBlockBytes name c ++ buf.drop (off + calculateColorSize name c),
        off + calculateColorSize name c) := by
  simp only [calculateColorSize] at h
  simp only [writeColor, setUint16, setUint32]
  rw [setBytes_spec buf off (be16 1) 2 (by simp [be16]) (by omega)]
  simp only [except_bind_ok]
  rw [setBytes_chain' buf off _
    (be32 (2 + ((utf8Encode name).length + 1) * 2 + getColorDataSize c)) 2 4 (off + 2)
    (off + 2) (by simp [be16]) (by simp [be32]) rfl rfl (by omega)]
  simp only [except_bind_ok]
  rw [setBytes_chain' buf off _ (be16 ((utf8Encode name).length + 1)) 6 2 (off + 6)
    (off + 2 + 4) (by simp [be16, be32]) (by simp [be16]) rfl (by omega) (by omega)]
  simp only [except_bind_ok]
  rw [writeWideBytes_spec (utf8Encode name) _ (off + 8) (by
    rw [splice_length' buf off 8 _ (off + 6 + 2) (by simp [be16, be32]) (by omega) (by omega)]
    omega)]
  simp only [except_bind_ok]
  rw [splice_take_at' buf off 8 _ (off + 8) (off + 6 + 2) (by simp [be16, be32]) (by omega)
    (by omega) (by omega)]
  rw [splice_drop_ge' buf off 8 _ (off + 8 + 2 * (utf8Encode name).length) (off + 6 + 2)
    (by simp [be16, be32]) (by omega) (by omega) (by omega)]
  rw [List.append_assoc (List.take off buf) _ (wideBytes (utf8Encode name))]
  rw [setBytes_chain' buf off _ (be16 0) (8 + 2 * (utf8Encode name).length) 2
    (off + 8 + (utf8Encode name).length * 2) (off + 8 + 2 * (utf8Encode name).length)
    (by simp [be16, be32, wideBytes_length, List.length_append]; omega) (by simp [be16])
    (by omega) (by omega) (by omega)]
  simp only [except_bind_ok]
  rw [writeColorData_spec _ c (off + 8 + (utf8Encode name).length * 2 + 2) (by
    rw [splice_length' buf off (8 + 2 * (utf8Encode name).length + 2) _
      (off + (8 + 2 * (utf8Encode name).length) + 2)
      (by simp [be16, be32, wideBytes_length, List.length_append]; omega) (by omega)
      (by omega)]
    omega)]
  simp only [except_bind_ok]
  rw [splice_take_at' buf off (8 + 2 * (utf8Encode name).length + 2) _
    (off + 8 + (utf8Encode name).length * 2 + 2) (off + (8 + 2 * (utf8Encode name).length) + 2)
    (by simp [be16, be32, wideBytes_length, List.length_append]; omega) (by omega) (by omega)
    (by omega)]
  rw [splice_drop_ge' buf off (8 + 2 * (utf8Encode name).length + 2) _
    (off + 8 + (utf8Encode name).length * 2 + 2 + getColorDataSize c)
    (off + (8 + 2 * (utf8Encode name).length) + 2)
    (by simp [be16, be32, wideBytes_length, List.length_append]; omega) (by omega) (by omega)
    (by omega)]
  rw [List.append_assoc (List.take off buf) _ (colorDataBytes c)]
  rw [show off + 8 + (utf8Encode name).length * 2 + 2 + getColorDataSize c =
    off + (6 + 2 + ((utf8Encode name).length + 1) * 2 + getColorDataSize c) from by omega]
  rw [show off + 6 + (2 + ((utf8Encode name).length + 1) * 2 + getColorDataSize c) =
    off + (6 + 2 + ((utf8Encode name).length + 1) * 2 + getColorDataSize c) from by omega]
  simp only [calculateColorSize, colorBlockBytes, List.append_assoc]
  rfl

/-- Entries that are not groups (write completes exactly on these). -/
def entryIsFlat : Entry → Bool
  | Entry.group _ _ => false
  | _ => true

/-- A forest of colors and group-ends only. -/
def isFlat (T : List Entry) : Bool := T.all entryIsFlat

/-- Byte image of one flat entry. -/
def blockBytesFlat : Entry → List Nat
  | Entry.color nm c => colorBlockBytes nm c
  | Entry.groupEnd => groupEndBytes
  | Entry.group _ _ => []

/-- Byte image of a flat forest. -/
def flatBytes (T : List Entry) : List Nat := T.flatMap blockBytesFlat

/-- On flat forests the node count is the list length. -/
theorem listNodes_flat (T : List Entry) (hf : isFlat T = true) : listNodes T = T.length := by
  induction T with
  | nil => rfl
  | cons e rest ih =>
    have hfe : entryIsFlat e = true ∧ isFlat rest = true := by
      simpa [isFlat, List.all_cons, Bool.and_eq_true] using hf
    cases e with
    | group nm es => simp [entryIsFlat] at hfe
    | color nm c =>
      simp only [listNodes, entryNodes, List.length_cons, ih hfe.2]
      omega
    | groupEnd =>
      simp only [listNodes, entryNodes, List.length_cons, ih hfe.2]
      omega

/-- The flat writer writes exactly the flat byte image and lands after it. -/
theorem writeEntriesFuel_flat_spec (T : List Entry) : ∀ (fuel : Nat) (buf : Buf) (off : Nat),
    isFlat T = true → T.length < fuel → off + calculateTotalSize T ≤ buf.length →
    writeEntriesFuel fuel buf T off = Except.ok
      (buf.take off ++ flatBytes T ++ buf.drop (off + calculateTotalSize T),
        off + calculateTotalSize T) := by
  induction T with
  | nil =>
    intro fuel buf off _ hfuel hb
    cases fuel with
    | zero => omega
    | succ f =>
      unfold writeEntriesFuel
      simp only [flatBytes, List.flatMap_nil, List.append_nil, calculateTotalSize,
        Nat.add_zero, List.take_append_drop]
  | cons e rest ih =>
    intro fuel buf off hf hfuel hb
    cases fuel with
    | zero => omega
    | succ f =>
      have hfe : entryIsFlat e = true ∧ isFlat rest = true := by
        simpa [isFlat, List.all_cons, Bool.and_eq_true] using hf
      have hfuel2 : rest.length < f := by
        simp only [List.length_cons] at hfuel
        omega
      unfold writeEntriesFuel
      cases e with
      | group nm es => simp [entryIsFlat] at hfe
      | color nm c =>
        have hb2 : off + (calculateColorSize nm c + calculateTotalSize rest) ≤ buf.length := by
          simp only [calculateTotalSize, calculateEntrySize] at hb
          omega
        have hb1 : off + calculateColorSize nm c ≤ buf.length := by omega
        simp only []
        rw [writeColor_spec buf nm c off hb1]
        simp only [except_bind_ok]
        rw [ih f _ (off + calculateColorSize nm c) hfe.2 hfuel2 (by
          rw [splice_length buf off (calculateColorSize nm c) _ (colorBlockBytes_length nm c)
            hb1]
          omega)]
        rw [splice_take_at' buf off (calculateColorSize nm c) _ (off + calculateColorSize nm c)
          (off + calculateColorSize nm c) (colorBlockBytes_length nm c) rfl rfl hb1]
        rw [splice_drop_ge' buf off (calculateColorSize nm c) _
          (off + calculateColorSize nm c + calculateTotalSize rest)
          (off + calculateColorSize nm c) (colorBlockBytes_length nm c) (by omega) rfl hb1]
        rw [List.append_assoc (List.take off buf) _ (flatBytes rest)]
        simp only [flatBytes, List.flatMap_cons, blockBytesFlat, calculateTotalSize,
          calculateEntrySize, List.append_assoc, Nat.add_assoc]
      | groupEnd =>
        have hb2 : off + (6 + calculateTotalSize rest) ≤ buf.length := by
          simp only [calculateTotalSize, calculateEntrySize] at hb
          omega
        have hb1 : off + 6 ≤ buf.length := by omega
        have hglen : (groupEndBytes : List Nat).length = 6 := by simp [groupEndBytes, be16, be32]
        simp only []
        rw [writeGroupEnd_spec buf off hb1]
        simp only [except_bind_ok]
        rw [ih f _ (off + 6) hfe.2 hfuel2 (by
          rw [splice_length buf off 6 _ hglen hb1]
          omega)]
        rw [splice_take_at' buf off 6 _ (off + 6) (off + 6) hglen rfl rfl hb1]
        rw [splice_drop_ge' buf off 6 _ (off + 6 + calculateTotalSize rest) (off + 6) hglen
          (by omega) rfl hb1]
        rw [List.append_assoc (List.take off buf) _ (flatBytes rest)]
        simp only [flatBytes, List.flatMap_cons, blockBytesFlat, calculateTotalSize,
          calculateEntrySize, List.append_assoc, Nat.add_assoc]

/-- The byte image of _writeHeader: signature, version 1.0, block count. -/
def headerBytes (T : List Entry) : List Nat :=
  be32 ASE_SIGNATURE ++ be16 1 ++ be16 0 ++ be32 (countBlocks T)

/-- The header is 12 bytes. -/
theorem headerBytes_length (T : List Entry) : (headerBytes T).length = 12 := by
  simp [headerBytes, be16, be32]

/-- _writeHeader writes exactly the header bytes at offset 0. -/
theorem writeHeader_spec (buf : Buf) (T : List Entry) (h : 12 ≤ buf.length) :
    writeHeader buf T = Except.ok (headerBytes T ++ buf.drop 12) := by
  simp only [writeHeader, setUint16, setUint32]
  rw [setBytes_spec buf 0 (be32 ASE_SIGNATURE) 4 (by simp [be32]) (by omega)]
  simp only [except_bind_ok]
  rw [setBytes_chain' buf 0 _ (be16 1) 4 2 4 (0 + 4) (by simp [be32]) (by simp [be16])
    (by omega) rfl (by omega)]
  simp only [except_bind_ok]
  rw [setBytes_chain' buf 0 _ (be16 0) 6 2 6 (0 + 4 + 2) (by simp [be16, be32])
    (by simp [be16]) (by omega) (by omega) (by omega)]
  simp only [except_bind_ok]
  rw [setBytes_chain' buf 0 _ (be32 (countBlocks T)) 8 4 8 (0 + 6 + 2) (by simp [be16, be32])
    (by simp [be32]) (by omega) (by omega) (by omega)]
  simp only [headerBytes, List.append_assoc, List.take_zero, List.nil_append]

/-- write on a flat forest produces exactly header plus flat block bytes. -/
theorem write_flat (T : List Entry) (hf : isFlat T = true) :
    write T = Except.ok (headerBytes T ++ flatBytes T) := by
  simp only [write, writeEntries]
  rw [writeHeader_spec _ T (by simp)]
  simp only [except_bind_ok]
  have hdlen : ((headerBytes T ++ (List.replicate (12 + calculateTotalSize T) 0).drop 12) :
      Buf).length = 12 + calculateTotalSize T := by
    simp [headerBytes_length, List.length_drop]
  rw [writeEntriesFuel_flat_spec T (listNodes T + 1) _ 12 hf
    (by rw [listNodes_flat T hf]; omega) (by rw [hdlen])]
  simp only [except_bind_ok]
  rw [List.take_left' (headerBytes_length T)]
  rw [List.drop_eq_nil_of_le (by rw [hdlen])]
  simp only [List.append_nil]
  rfl

/-- A byte visible at the head of a drop is what getByte returns. -/
theorem getByte_of_drop (buf : Buf) (off b : Nat) (rest : List Nat)
    (h : buf.drop off = b :: rest) : getByte buf off = Except.ok b := by
  unfold getByte
  have h0 : (buf.drop off)[0]? = some b := by rw [h]; simp
  rw [List.getElem?_drop, Nat.add_zero] at h0
  rw [h0]

/-- Dropping one more byte past a known head. -/
theorem drop_succ_of_drop (buf : Buf) (off x : Nat) (xs : List Nat)
    (h : buf.drop off = x :: xs) : buf.drop (off + 1) = xs := by
  have h2 : (buf.drop off).drop 1 = xs := by rw [h]; rfl
  rw [List.drop_drop] at h2
  exact h2

/-- Dropping past a known prefix segment, target position by equation. -/
theorem drop_at_of_drop (buf : Buf) (off : Nat) (L rest : List Nat) (n k : Nat)
    (h : buf.drop off = L ++ rest) (hL : L.length = n) (hk : k = off + n) :
    buf.drop k = rest := by
  have h2 : (buf.drop off).drop n = rest := by rw [h, List.drop_left' hL]
  rw [List.drop_drop] at h2
  rw [hk]
  exact h2

/-- The input is long enough to hold everything a drop equation exposes. -/
theorem length_of_drop_cons (buf : Buf) (off x : Nat) (xs : List Nat)
    (h : buf.drop off = x :: xs) : buf.length = off + 1 + xs.length := by
  have h2 := congrArg List.length h
  simp only [List.length_drop, List.length_cons] at h2
  rcases Nat.le_total off buf.length with hle | hle
  · omega
  · rw [List.drop_eq_nil_of_le hle] at h
    exact absurd h (by simp)

/-- A uint16 read off a known two-byte prefix. -/
theorem getUint16_of_drop (buf : Buf) (off a b : Nat) (rest : List Nat)
    (h : buf.drop off = a :: b :: rest) : getUint16 buf off = Except.ok (256 * a + b) := by
  unfold getUint16
  rw [getByte_of_drop buf off a _ h]
  simp only [except_bind_ok]
  rw [getByte_of_drop buf (off + 1) b rest (drop_succ_of_drop buf off a _ h)]
  rfl

/-- A uint32 read off a known four-byte prefix. -/
theorem getUint32_of_drop (buf : Buf) (off a b c d : Nat) (rest : List Nat)
    (h : buf.drop off = a :: b :: c :: d :: rest) :
    getUint32 buf off = Except.ok (16777216 * a + 65536 * b + 256 * c + d) := by
  unfold getUint32
  rw [getByte_of_drop buf off a _ h]
  simp only [except_bind_ok]
  rw [getByte_of_drop buf (off + 1) b _ (drop_succ_of_drop buf off a _ h)]
  simp only [except_bind_ok]
  rw [getByte_of_drop buf (off + 2) c _
    (drop_succ_of_drop buf (off + 1) b _ (drop_succ_of_drop buf off a _ h))]
  simp only [except_bind_ok]
  rw [getByte_of_drop buf (off + 3) d _
    (drop_succ_of_drop buf (off + 2) c _
      (drop_succ_of_drop buf (off + 1) b _ (drop_succ_of_drop buf off a _ h)))]
  rfl

/-- A sub-view read off a known prefix. -/
theorem getBytesSub_of_drop (buf : Buf) (off len : Nat) (l rest : List Nat)
    (h : buf.drop off = l ++ rest) (hlen : l.length = len) (hb : off + len ≤ buf.length) :
    getBytesSub buf off len = Except.ok l := by
  unfold getBytesSub
  rw [if_pos hb, h, List.take_left' hlen]

/-- Reassembling the two bytes of a be16 store gives the stored value mod 2^16. -/
theorem be16_value (v : Nat) : 256 * (v % 65536 / 256) + v % 256 = v % 65536 := by
  omega

/-- Reassembling the four bytes of a be32 store gives the stored value mod 2^32. -/
theorem be32_value (v : Nat) :
    16777216 * (v / 16777216 % 256) + 65536 * (v / 65536 % 256) + 256 * (v / 256 % 256) +
      v % 256 = v % 4294967296 := by
  omega

/-- A uint16 read off a be16 store recovers the value mod 2^16. -/
theorem getUint16_be16 (buf : Buf) (off v : Nat) (rest : List Nat)
    (h : buf.drop off = be16 v ++ rest) : getUint16 buf off = Except.ok (v % 65536) := by
  simp only [be16, List.cons_append, List.nil_append] at h
  rw [getUint16_of_drop buf off _ _ rest h, be16_value]

/-- A uint32 read off a be32 store recovers the value mod 2^32. -/
theorem getUint32_be32 (buf : Buf) (off v : Nat) (rest : List Nat)
    (h : buf.drop off = be32 v ++ rest) : getUint32 buf off = Except.ok (v % 4294967296) := by
  simp only [be32, List.cons_append, List.nil_append] at h
  rw [getUint32_of_drop buf off _ _ _ _ rest h]
  rw [show 16777216 * (v / 16777216 % 256) + 65536 * (v / 65536 % 256) + 256 * (v / 256 % 256) +
    v % 256 = v % 4294967296 from be32_value v]

/-- UTF-8 encoding is the identity on ASCII code points. -/
theorem utf8Encode_ascii (l : List Nat) (h : ∀ ch ∈ l, ch < 128) : utf8Encode l = l := by
  induction l with
  | nil => rfl
  | cons ch rest ih =>
    have hch : ch < 128 := h ch (List.mem_cons_self ch rest)
    simp only [utf8Encode, List.flatMap_cons] at ih ⊢
    rw [show utf8EncodeChar ch = [ch] from by unfold utf8EncodeChar; rw [if_pos hch]]
    rw [ih (fun x hx => h x (List.mem_cons_of_mem ch hx))]
    rfl

/-- Code units below the surrogate range decode to themselves. -/
theorem unitsToCodepoints_low : ∀ (l : List Nat), (∀ u ∈ l, u < 0xD800) →
    unitsToCodepoints l = l
  | [], _ => rfl
  | [u], h => by
    have hu : u < 0xD800 := h u (List.mem_cons_self u [])
    unfold unitsToCodepoints
    rw [if_neg (by omega)]
  | u :: u2 :: rest, h => by
    have hu : u < 0xD800 := h u (List.mem_cons_self u _)
    have hrec := unitsToCodepoints_low (u2 :: rest)
      (fun x hx => h x (List.mem_cons_of_mem u hx))
    unfold unitsToCodepoints
    rw [if_neg (by omega), if_neg (by omega), hrec]

/-- Widened ASCII bytes pair back into the original code units. -/
theorem bytesToUnits_wide (l : List Nat) (h : ∀ b ∈ l, b < 128) :
    bytesToUnits (wideBytes l) = l := by
  induction l with
  | nil => rfl
  | cons b rest ih =>
    have hb : b < 128 := h b (List.mem_cons_self b rest)
    simp only [wideBytes, List.flatMap_cons, be16, List.cons_append, List.nil_append] at ih ⊢
    unfold bytesToUnits
    rw [ih (fun x hx => h x (List.mem_cons_of_mem b hx))]
    congr 1
    omega

/-- The name round-trip of the writer and reader on ASCII bytes. -/
theorem utf16beDecode_wide_ascii (l : List Nat) (h : ∀ b ∈ l, b < 128) :
    utf16beDecode (wideBytes l) = l := by
  unfold utf16beDecode
  rw [bytesToUnits_wide l h]
  exact unitsToCodepoints_low l (fun u hu => by have := h u hu; omega)

/-- Looking the written ordinal back up recovers the type field, also when it
is undefined (indexOf gives -1, ToUint16 gives 65535, lookup gives none). -/
theorem colorTypes_lookup (t : Option ColorType) :
    ASE_COLOR_TYPES[(toUint16 (indexOfColorType t))]? = t := by
  cases t with
  | none => rfl
  | some ct => cases ct <;> rfl

/-- Bind after pure is application (simp-oriented form). -/
theorem except_pure_bind {α β : Type} (a : α) (f : α → Except String β) :
    ((pure a : Except String α) >>= f) = f a := rfl

/-- The payload of a color block as encoded: name length, widened name, null
terminator, model tag, components, ordinal. -/
def colorPayloadBytes (name : List Nat) (c : Color) (ord : Nat) : List Nat :=
  be16 ((utf8Encode name).length + 1) ++ wideBytes (utf8Encode name) ++ be16 0 ++
    modelTag c ++ compBytes c ++ be16 ord

/-- All component patterns of a color fit in 32 bits. -/
def compValid : Color → Bool
  | Color.rgb r g b _ _ =>
    decide (r < 4294967296) && decide (g < 4294967296) && decide (b < 4294967296)
  | Color.cmyk c m y k _ =>
    decide (c < 4294967296) && decide (m < 4294967296) && decide (y < 4294967296) &&
      decide (k < 4294967296)
  | Color.gray g _ _ => decide (g < 4294967296)
  | Color.lab l a b _ =>
    decide (l < 4294967296) && decide (a < 4294967296) && decide (b < 4294967296)

/-- What the decoder reconstructs from an encoded color: same components,
derived hex, and the type looked up from the stored ordinal. -/
def recolor : Color → Nat → Color
  | Color.rgb r g b _ _, ord => Color.rgb r g b (rgbToHex r g b) ASE_COLOR_TYPES[ord]?
  | Color.cmyk c m y k _, ord => Color.cmyk c m y k ASE_COLOR_TYPES[ord]?
  | Color.gray g _ _, ord => Color.gray g (rgbToHex g g g) ASE_COLOR_TYPES[ord]?
  | Color.lab l a b _, ord => Color.lab l a b ASE_COLOR_TYPES[ord]?

/-- _readColor on an encoded color payload with ASCII name: it succeeds and
rebuilds the color with recomputed hex and the ordinal looked up. -/
theorem readColor_payload_spec (buf : Buf) (off : Nat) (name : List Nat) (c : Color)
    (ord : Nat) (post : List Nat)
    (h : buf.drop off = colorPayloadBytes name c ord ++ post)
    (hascii : ∀ ch ∈ name, ch < 128)
    (hlen : name.length + 1 < 65536)
    (hcomp : compValid c = true)
    (hord : ord < 65536) :
    readColor buf off = Except.ok (Entry.color name (recolor c ord)) := by
  have hnb : utf8Encode name = name := utf8Encode_ascii name hascii
  simp only [colorPayloadBytes, hnb, List.append_assoc] at h
  have hcc := h
  simp only [be16, List.cons_append, List.nil_append] at hcc
  have hblen := length_of_drop_cons buf off _ _ hcc
  have htail := congrArg List.length
    (drop_succ_of_drop buf off _ _ hcc)
  simp only [List.length_drop, List.length_cons, List.length_append, wideBytes_length] at htail
  have hu16 : getUint16 buf off = Except.ok (name.length + 1) := by
    rw [getUint16_be16 buf off (name.length + 1) _ h]
    rw [Nat.mod_eq_of_lt hlen]
  have hd1 : buf.drop (off + 2) = wideBytes name ++ (be16 0 ++
      (modelTag c ++ (compBytes c ++ (be16 ord ++ post)))) :=
    drop_at_of_drop buf off _ _ 2 (off + 2) h (by simp [be16]) rfl
  have hd2 : buf.drop (off + 2 + 2 * name.length) = be16 0 ++
      (modelTag c ++ (compBytes c ++ (be16 ord ++ post))) :=
    drop_at_of_drop buf (off + 2) _ _ (2 * name.length) (off + 2 + 2 * name.length) hd1
      (wideBytes_length name) rfl
  have hd3 : buf.drop (off + 2 + (name.length + 1) * 2) =
      modelTag c ++ (compBytes c ++ (be16 ord ++ post)) :=
    drop_at_of_drop buf (off + 2 + 2 * name.length) _ _ 2 (off + 2 + (name.length + 1) * 2)
      hd2 (by simp [be16]) (by omega)
  have hmtl : (modelTag c).length = 4 := by cases c <;> rfl
  have hd4 : buf.drop (off + 2 + (name.length + 1) * 2 + 4) =
      compBytes c ++ (be16 ord ++ post) :=
    drop_at_of_drop buf (off + 2 + (name.length + 1) * 2) _ _ 4
      (off + 2 + (name.length + 1) * 2 + 4) hd3 hmtl rfl
  have hmb : getBytesSub buf (off + 2 + (name.length + 1) * 2) 4 = Except.ok (modelTag c) :=
    getBytesSub_of_drop buf _ 4 (modelTag c) _ hd3 hmtl (by omega)
  have hname : readUTF16BE buf (off + 2) (name.length + 1) = Except.ok name := by
    unfold readUTF16BE
    rw [if_neg (by omega)]
    rw [getBytesSub_of_drop buf (off + 2) ((name.length + 1 - 1) * 2) (wideBytes name) _ hd1
      (by rw [wideBytes_length]; omega) (by omega)]
    simp only [except_bind_ok]
    rw [utf16beDecode_wide_ascii name hascii]
    rfl
  unfold readColor
  rw [hu16]
  simp only [except_bind_ok]
  rw [hname]
  simp only [except_bind_ok]
  rw [hmb]
  simp only [except_bind_ok]
  cases c with
  | rgb r g b hx t =>
    simp only [compValid, Bool.and_eq_true, decide_eq_true_eq] at hcomp
    simp only [modelTag] at hd4 ⊢
    simp only [show jsTrim (utf8Decode [82, 71, 66, 32]) = [82, 71, 66] from by decide,
      reduceIte]
    simp only [compBytes, List.append_assoc] at hd4
    have he1 : buf.drop (off + 2 + (name.length + 1) * 2 + 4 + 4) =
        be32 g ++ (be32 b ++ (be16 ord ++ post)) :=
      drop_at_of_drop buf _ _ _ 4 _ hd4 (by simp [be32]) rfl
    have he2 : buf.drop (off + 2 + (name.length + 1) * 2 + 4 + 4 + 4) =
        be32 b ++ (be16 ord ++ post) :=
      drop_at_of_drop buf _ _ _ 4 _ he1 (by simp [be32]) rfl
    have he3 : buf.drop (off + 2 + (name.length + 1) * 2 + 4 + 4 + 4 + 4) =
        be16 ord ++ post :=
      drop_at_of_drop buf _ _ _ 4 _ he2 (by simp [be32]) rfl
    rw [show getFloat32 buf (off + 2 + (name.length + 1) * 2 + 4) = Except.ok r from by
      rw [getFloat32, getUint32_be32 buf _ r _ hd4, Nat.mod_eq_of_lt hcomp.1.1]]
    simp only [except_bind_ok]
    rw [show getFloat32 buf (off + 2 + (name.length + 1) * 2 + 8) = Except.ok g from by
      rw [getFloat32, show off + 2 + (name.length + 1) * 2 + 8 =
        off + 2 + (name.length + 1) * 2 + 4 + 4 from by omega,
        getUint32_be32 buf _ g _ he1, Nat.mod_eq_of_lt hcomp.1.2]]
    simp only [except_bind_ok]
    rw [show getFloat32 buf (off + 2 + (name.length + 1) * 2 + 12) = Except.ok b from by
      rw [getFloat32, show off + 2 + (name.length + 1) * 2 + 12 =
        off + 2 + (name.length + 1) * 2 + 4 + 4 + 4 from by omega,
        getUint32_be32 buf _ b _ he2, Nat.mod_eq_of_lt hcomp.2]]
    simp only [except_bind_ok]
    rw [show getUint16 buf (off + 2 + (name.length + 1) * 2 + 16) = Except.ok ord from by
      rw [show off + 2 + (name.length + 1) * 2 + 16 =
        off + 2 + (name.length + 1) * 2 + 4 + 4 + 4 + 4 from by omega,
        getUint16_be16 buf _ ord _ he3, Nat.mod_eq_of_lt hord]]
    simp only [except_bind_ok, recolor]
    rfl
  | cmyk c1 m y k t =>
    simp only [compValid, Bool.and_eq_true, decide_eq_true_eq] at hcomp
    simp only [modelTag] at hd4 ⊢
    simp only [show jsTrim (utf8Decode [67, 77, 89, 75]) = [67, 77, 89, 75] from by decide,
      reduceIte]
    simp only [compBytes, List.append_assoc] at hd4
    have he1 : buf.drop (off + 2 + (name.length + 1) * 2 + 4 + 4) =
        be32 m ++ (be32 y ++ (be32 k ++ (be16 ord ++ post))) :=
      drop_at_of_drop buf _ _ _ 4 _ hd4 (by simp [be32]) rfl
    have he2 : buf.drop (off + 2 + (name.length + 1) * 2 + 4 + 4 + 4) =
        be32 y ++ (be32 k ++ (be16 ord ++ post)) :=
      drop_at_of_drop buf _ _ _ 4 _ he1 (by simp [be32]) rfl
    have he3 : buf.drop (off + 2 + (name.length + 1) * 2 + 4 + 4 + 4 + 4) =
        be32 k ++ (be16 ord ++ post) :=
      drop_at_of_drop buf _ _ _ 4 _ he2 (by simp [be32]) rfl
    have he4 : buf.drop (off + 2 + (name.length + 1) * 2 + 4 + 4 + 4 + 4 + 4) =
        be16 ord ++ post :=
      drop_at_of_drop buf _ _ _ 4 _ he3 (by simp [be32]) rfl
    rw [show getFloat32 buf (off + 2 + (name.length + 1) * 2 + 4) = Except.ok c1 from by
      rw [getFloat32, getUint32_be32 buf _ c1 _ hd4, Nat.mod_eq_of_lt hcomp.1.1.1]]
    simp only [except_bind_ok]
    rw [show getFloat32 buf (off + 2 + (name.length + 1) * 2 + 8) = Except.ok m from by
      rw [getFloat32, show off + 2 + (name.length + 1) * 2 + 8 =
        off + 2 + (name.length + 1) * 2 + 4 + 4 from by omega,
        getUint32_be32 buf _ m _ he1, Nat.mod_eq_of_lt hcomp.1.1.2]]
    simp only [except_bind_ok]
    rw [show getFloat32 buf (off + 2 + (name.length + 1) * 2 + 12) = Except.ok y from by
      rw [getFloat32, show off + 2 + (name.length + 1) * 2 + 12 =
        off + 2 + (name.length + 1) * 2 + 4 + 4 + 4 from by omega,
        getUint32_be32 buf _ y _ he2, Nat.mod_eq_of_lt hcomp.1.2]]
    simp only [except_bind_ok]
    rw [show getFloat32 buf (off + 2 + (name.length + 1) * 2 + 16) = Except.ok k from by
      rw [getFloat32, show off + 2 + (name.length + 1) * 2 + 16 =
        off + 2 + (name.length + 1) * 2 + 4 + 4 + 4 + 4 from by omega,
        getUint32_be32 buf _ k _ he3, Nat.mod_eq_of_lt hcomp.2]]
    simp only [except_bind_ok]
    rw [show getUint16 buf (off + 2 + (name.length + 1) * 2 + 20) = Except.ok ord from by
      rw [show off + 2 + (name.length + 1) * 2 + 20 =
        off + 2 + (name.length + 1) * 2 + 4 + 4 + 4 + 4 + 4 from by omega,
        getUint16_be16 buf _ ord _ he4, Nat.mod_eq_of_lt hord]]
    simp only [except_bind_ok, recolor]
    rfl
  | gray g hx t =>
    simp only [compValid, decide_eq_true_eq] at hcomp
    simp only [modelTag] at hd4 ⊢
    simp only [show jsTrim (utf8Decode [71, 114, 97, 121]) = [71, 114, 97, 121] from by decide,
      reduceIte]
    simp only [compBytes, List.append_assoc] at hd4
    have he1 : buf.drop (off + 2 + (name.length + 1) * 2 + 4 + 4) = be16 ord ++ post :=
      drop_at_of_drop buf _ _ _ 4 _ hd4 (by simp [be32]) rfl
    rw [show getFloat32 buf (off + 2 + (name.length + 1) * 2 + 4) = Except.ok g from by
      rw [getFloat32, getUint32_be32 buf _ g _ hd4, Nat.mod_eq_of_lt hcomp]]
    simp only [except_bind_ok]
    rw [show getUint16 buf (off + 2 + (name.length + 1) * 2 + 8) = Except.ok ord from by
      rw [show off + 2 + (name.length + 1) * 2 + 8 =
        off + 2 + (name.length + 1) * 2 + 4 + 4 from by omega,
        getUint16_be16 buf _ ord _ he1, Nat.mod_eq_of_lt hord]]
    simp only [except_bind_ok, recolor]
    rfl
  | lab l a b t =>
    simp only [compValid, Bool.and_eq_true, decide_eq_true_eq] at hcomp
    simp only [modelTag] at hd4 ⊢
    simp only [show jsTrim (utf8Decode [76, 65, 66, 32]) = [76, 65, 66] from by decide,
      reduceIte]
    simp only [compBytes, List.append_assoc] at hd4
    have he1 : buf.drop (off + 2 + (name.length + 1) * 2 + 4 + 4) =
        be32 a ++ (be32 b ++ (be16 ord ++ post)) :=
      drop_at_of_drop buf _ _ _ 4 _ hd4 (by simp [be32]) rfl
    have he2 : buf.drop (off + 2 + (name.length + 1) * 2 + 4 + 4 + 4) =
        be32 b ++ (be16 ord ++ post) :=
      drop_at_of_drop buf _ _ _ 4 _ he1 (by simp [be32]) rfl
    have he3 : buf.drop (off + 2 + (name.length + 1) * 2 + 4 + 4 + 4 + 4) =
        be16 ord ++ post :=
      drop_at_of_drop buf _ _ _ 4 _ he2 (by simp [be32]) rfl
    rw [show getFloat32 buf (off + 2 + (name.length + 1) * 2 + 4) = Except.ok l from by
      rw [getFloat32, getUint32_be32 buf _ l _ hd4, Nat.mod_eq_of_lt hcomp.1.1]]
    simp only [except_bind_ok]
    rw [show getFloat32 buf (off + 2 + (name.length + 1) * 2 + 8) = Except.ok a from by
      rw [getFloat32, show off + 2 + (name.length + 1) * 2 + 8 =
        off + 2 + (name.length + 1) * 2 + 4 + 4 from by omega,
        getUint32_be32 buf _ a _ he1, Nat.mod_eq_of_lt hcomp.1.2]]
    simp only [except_bind_ok]
    rw [show getFloat32 buf (off + 2 + (name.length + 1) * 2 + 12) = Except.ok b from by
      rw [getFloat32, show off + 2 + (name.length + 1) * 2 + 12 =
        off + 2 + (name.length + 1) * 2 + 4 + 4 + 4 from by omega,
        getUint32_be32 buf _ b _ he2, Nat.mod_eq_of_lt hcomp.2]]
    simp only [except_bind_ok]
    rw [show getUint16 buf (off + 2 + (name.length + 1) * 2 + 16) = Except.ok ord from by
      rw [show off + 2 + (name.length + 1) * 2 + 16 =
        off + 2 + (name.length + 1) * 2 + 4 + 4 + 4 + 4 from by omega,
        getUint16_be16 buf _ ord _ he3, Nat.mod_eq_of_lt hord]]
    simp only [except_bind_ok, recolor]
    rfl

/-- Well-formedness of one flat entry for exact round-tripping: ASCII name
short enough for the uint16 length field, components fitting in 32 bits. -/
def entryWfFlat : Entry → Bool
  | Entry.color nm c =>
    nm.all (fun ch => decide (ch < 128)) && decide (nm.length + 1 < 65536) && compValid c
  | Entry.groupEnd => true
  | Entry.group _ _ => false

/-- Well-formedness of a flat forest. -/
def forestWf (T : List Entry) : Bool := T.all entryWfFlat

/-- Well-formed forests are flat. -/
theorem forestWf_isFlat (T : List Entry) (h : forestWf T = true) : isFlat T = true := by
  simp only [forestWf, isFlat, List.all_eq_true] at h ⊢
  intro e he
  have he' := h e he
  cases e with
  | color nm c => rfl
  | groupEnd => rfl
  | group nm es => exact absurd he' (by simp [entryWfFlat])

/-- What decode rebuilds from one encoded flat entry. -/
def normEntry : Entry → Entry
  | Entry.color nm c => Entry.color nm (recolor c (toUint16 (indexOfColorType (colorTypeOf c))))
  | e => e

/-- Every stored type ordinal fits in 16 bits. -/
theorem toUint16_lt (i : Int) : toUint16 i < 65536 := by
  have h1 := Int.emod_nonneg i (show (65536 : Int) ≠ 0 from by norm_num)
  have h2 := Int.emod_lt_of_pos i (show (0 : Int) < 65536 from by norm_num)
  simp only [toUint16]
  omega

/-- Color data occupies at most 22 bytes (the CMYK case). -/
theorem getColorDataSize_le (c : Color) : getColorDataSize c ≤ 22 := by
  cases c <;> simp [getColorDataSize]

/-- A color block splits as the 6-byte block header followed by the encoded
payload, whose ordinal is the one the writer stores. -/
theorem colorBlockBytes_decomp (nm : List Nat) (c : Color) :
    colorBlockBytes nm c =
      be16 1 ++ (be32 (2 + ((utf8Encode nm).length + 1) * 2 + getColorDataSize c) ++
        colorPayloadBytes nm c (toUint16 (indexOfColorType (colorTypeOf c)))) := by
  simp [colorBlockBytes, colorPayloadBytes, colorDataBytes, List.append_assoc]

/-- The payload length equals the block length the writer stores. -/
theorem colorPayloadBytes_length (nm : List Nat) (c : Color) :
    (colorPayloadBytes nm c (toUint16 (indexOfColorType (colorTypeOf c)))).length =
      2 + ((utf8Encode nm).length + 1) * 2 + getColorDataSize c := by
  have hc := colorDataBytes_length c
  simp only [colorDataBytes, List.length_append, be16, List.length_cons, List.length_nil] at hc
  simp only [colorPayloadBytes, List.length_append, wideBytes_length, be16, List.length_cons,
    List.length_nil]
  omega

/-- The block loop on the bytes of a well-formed flat forest parses every
block and returns the forest with each color entry normalised. -/
theorem readEntriesAux_flat_spec (T : List Entry) : ∀ (off : Nat) (buf : Buf) (post : List Nat),
    forestWf T = true → buf.drop off = flatBytes T ++ post →
    readEntriesAux buf T.length off = Except.ok (T.map normEntry) := by
  induction T with
  | nil =>
    intro off buf post _ _
    rfl
  | cons e rest ih =>
    intro off buf post hwf h
    have hwfe : entryWfFlat e = true ∧ forestWf rest = true := by
      simpa [forestWf, List.all_cons, Bool.and_eq_true] using hwf
    simp only [flatBytes, List.flatMap_cons, List.append_assoc] at h
    cases e with
    | group nm es => simp [entryWfFlat] at hwfe
    | groupEnd =>
      simp only [blockBytesFlat, groupEndBytes, List.append_assoc] at h
      have ht : getUint16 buf off = Except.ok 49154 := by
        rw [getUint16_be16 buf off 0xC002 _ h]
      have hd1 : buf.drop (off + 2) = be32 0 ++ (rest.flatMap blockBytesFlat ++ post) :=
        drop_at_of_drop buf off _ _ 2 (off + 2) h (by simp [be16]) rfl
      have hb : getUint32 buf (off + 2) = Except.ok 0 := by
        rw [getUint32_be32 buf (off + 2) 0 _ hd1]
      have hd2 : buf.drop (off + 6 + 0) = rest.flatMap blockBytesFlat ++ post :=
        drop_at_of_drop buf (off + 2) _ _ 4 (off + 6 + 0) hd1 (by simp [be32]) (by omega)
      simp only [List.length_cons]
      unfold readEntriesAux
      rw [ht]
      simp only [except_bind_ok]
      rw [hb]
      simp only [except_bind_ok]
      simp only [reduceIte]
      rw [ih (off + 6 + 0) buf post hwfe.2 hd2]
      rfl
    | color nm c =>
      obtain ⟨hwf1, hwfrest⟩ := hwfe
      simp only [entryWfFlat, Bool.and_eq_true, List.all_eq_true, decide_eq_true_eq] at hwf1
      have hnb : utf8Encode nm = nm := utf8Encode_ascii nm hwf1.1.1
      simp only [blockBytesFlat] at h
      rw [colorBlockBytes_decomp nm c] at h
      simp only [List.append_assoc] at h
      have ht : getUint16 buf off = Except.ok 1 := by
        rw [getUint16_be16 buf off 1 _ h]
      have hd1 : buf.drop (off + 2) =
          be32 (2 + ((utf8Encode nm).length + 1) * 2 + getColorDataSize c) ++
            (colorPayloadBytes nm c (toUint16 (indexOfColorType (colorTypeOf c))) ++
              (rest.flatMap blockBytesFlat ++ post)) :=
        drop_at_of_drop buf off _ _ 2 (off + 2) h (by simp [be16]) rfl
      have hblt : 2 + ((utf8Encode nm).length + 1) * 2 + getColorDataSize c < 4294967296 := by
        have := getColorDataSize_le c
        rw [hnb]
        omega
      have hb : getUint32 buf (off + 2) =
          Except.ok (2 + ((utf8Encode nm).length + 1) * 2 + getColorDataSize c) := by
        rw [getUint32_be32 buf (off + 2) _ _ hd1, Nat.mod_eq_of_lt hblt]
      have hd2 : buf.drop (off + 6) =
          colorPayloadBytes nm c (toUint16 (indexOfColorType (colorTypeOf c))) ++
            (rest.flatMap blockBytesFlat ++ post) :=
        drop_at_of_drop buf (off + 2) _ _ 4 (off + 6) hd1 (by simp [be32]) (by omega)
      have hcolor := readColor_payload_spec buf (off + 6) nm c
        (toUint16 (indexOfColorType (colorTypeOf c))) (rest.flatMap blockBytesFlat ++ post)
        hd2 hwf1.1.1 hwf1.1.2 hwf1.2 (toUint16_lt _)
      have hd3 : buf.drop (off + 6 + (2 + ((utf8Encode nm).length + 1) * 2 +
          getColorDataSize c)) = rest.flatMap blockBytesFlat ++ post :=
        drop_at_of_drop buf (off + 6) _ _ _ _ hd2 (colorPayloadBytes_length nm c) rfl
      simp only [List.length_cons]
      unfold readEntriesAux
      rw [ht]
      simp only [except_bind_ok]
      rw [hb]
      simp only [except_bind_ok]
      simp only [reduceIte]
      rw [hcolor]
      simp only [except_bind_ok]
      rw [ih _ buf post hwfrest hd3]
      rfl

/-- With a flat accumulator the reduction step is a plain push. -/
theorem reduceStep_flat (acc : List Entry) (e : Entry) (hacc : isFlat acc = true) :
    reduceStep acc e = acc ++ [e] := by
  unfold reduceStep
  cases hg : acc.getLast? with
  | none => rfl
  | some le =>
    cases le with
    | group nm es =>
      have hmem := mem_of_getLast?_eq acc _ hg
      simp only [isFlat, List.all_eq_true] at hacc
      exact absurd (hacc _ hmem) (by simp [entryIsFlat])
    | color nm c => rfl
    | groupEnd => rfl

/-- The reduction pass is the identity on flat lists. -/
theorem foldl_reduceStep_flat (l : List Entry) : ∀ acc, isFlat acc = true →
    isFlat l = true → l.foldl reduceStep acc = acc ++ l := by
  induction l with
  | nil =>
    intro acc _ _
    simp
  | cons e rest ih =>
    intro acc hacc hf
    have hfe : entryIsFlat e = true ∧ isFlat rest = true := by
      simpa [isFlat, List.all_cons, Bool.and_eq_true] using hf
    have hacc2 : isFlat (acc ++ [e]) = true := by
      simp only [isFlat, List.all_append, List.all_cons, List.all_nil, Bool.and_eq_true] at hacc ⊢
      exact ⟨hacc, hfe.1, trivial⟩
    simp only [List.foldl_cons]
    rw [reduceStep_flat acc e hacc]
    rw [ih (acc ++ [e]) hacc2 hfe.2]
    simp [List.append_assoc]

/-- Normalisation does not change an entry's flatness. -/
theorem entryIsFlat_normEntry (e : Entry) : entryIsFlat (normEntry e) = entryIsFlat e := by
  cases e <;> rfl

/-- Normalisation keeps a flat forest flat. -/
theorem isFlat_map_normEntry (T : List Entry) : isFlat (T.map normEntry) = isFlat T := by
  induction T with
  | nil => rfl
  | cons e rest ih =>
    simp only [List.map_cons, isFlat, List.all_cons] at ih ⊢
    rw [entryIsFlat_normEntry, ih]

/-- On flat forests the block count is the list length. -/
theorem countBlocks_flat (T : List Entry) (hf : isFlat T = true) : countBlocks T = T.length := by
  induction T with
  | nil => rfl
  | cons e rest ih =>
    have hfe : entryIsFlat e = true ∧ isFlat rest = true := by
      simpa [isFlat, List.all_cons, Bool.and_eq_true] using hf
    cases e with
    | group nm es => simp [entryIsFlat] at hfe
    | color nm c =>
      simp only [countBlocks, countBlocksEntry, List.length_cons, ih hfe.2]
      omega
    | groupEnd =>
      simp only [countBlocks, countBlocksEntry, List.length_cons, ih hfe.2]
      omega

/-- Decoding the encoder's output for a well-formed flat forest yields the
forest with every color normalised. -/
theorem read_write_flat (T : List Entry) (hwf : forestWf T = true)
    (hcount : countBlocks T < 4294967296) :
    read (headerBytes T ++ flatBytes T) = Except.ok (T.map normEntry) := by
  have hflat := forestWf_isFlat T hwf
  have h0 : (headerBytes T ++ flatBytes T).drop 0 =
      be32 ASE_SIGNATURE ++ (be16 1 ++ (be16 0 ++ (be32 (countBlocks T) ++ flatBytes T))) := by
    simp [headerBytes, List.append_assoc]
  have hsig : getUint32 (headerBytes T ++ flatBytes T) 0 = Except.ok ASE_SIGNATURE := by
    rw [getUint32_be32 _ 0 ASE_SIGNATURE _ h0]
    rw [Nat.mod_eq_of_lt (by simp [ASE_SIGNATURE])]
  have hd4 : (headerBytes T ++ flatBytes T).drop 4 =
      be16 1 ++ (be16 0 ++ (be32 (countBlocks T) ++ flatBytes T)) :=
    drop_at_of_drop _ 0 _ _ 4 4 h0 (by simp [be32]) rfl
  have hmaj : getUint16 (headerBytes T ++ flatBytes T) 4 = Except.ok 1 := by
    rw [getUint16_be16 _ 4 1 _ hd4]
  have hd6 : (headerBytes T ++ flatBytes T).drop 6 =
      be16 0 ++ (be32 (countBlocks T) ++ flatBytes T) :=
    drop_at_of_drop _ 4 _ _ 2 6 hd4 (by simp [be16]) rfl
  have hmin : getUint16 (headerBytes T ++ flatBytes T) 6 = Except.ok 0 := by
    rw [getUint16_be16 _ 6 0 _ hd6]
  have hd8 : (headerBytes T ++ flatBytes T).drop 8 = be32 (countBlocks T) ++ flatBytes T :=
    drop_at_of_drop _ 6 _ _ 2 8 hd6 (by simp [be16]) rfl
  have hcnt : getUint32 (headerBytes T ++ flatBytes T) 8 = Except.ok (countBlocks T) := by
    rw [getUint32_be32 _ 8 _ _ hd8, Nat.mod_eq_of_lt hcount]
  have hd12 : (headerBytes T ++ flatBytes T).drop 12 = flatBytes T ++ [] := by
    rw [List.drop_left' (headerBytes_length T), List.append_nil]
  have hent : readEntries (headerBytes T ++ flatBytes T) 12 = Except.ok (T.map normEntry) := by
    unfold readEntries
    rw [hcnt]
    simp only [except_bind_ok]
    rw [countBlocks_flat T hflat]
    exact readEntriesAux_flat_spec T 12 _ [] hwf hd12
  unfold read
  rw [hsig]
  simp only []
  rw [if_neg (by simp)]
  rw [hmaj]
  simp only []
  rw [hmin]
  simp only []
  rw [if_neg (by simp)]
  rw [hent]
  simp only []
  rw [foldl_reduceStep_flat (T.map normEntry) [] rfl
    (by rw [isFlat_map_normEntry]; exact hflat)]
  rw [List.nil_append]

/-- Normalisation does not change the bytes a flat entry encodes to: the
block ignores the hex field, and the type ordinal survives the table
round-trip. -/
theorem blockBytesFlat_normEntry (e : Entry) : blockBytesFlat (normEntry e) = blockBytesFlat e := by
  cases e with
  | color nm c =>
    cases c <;> simp [normEntry, blockBytesFlat, recolor, colorBlockBytes, getColorDataSize,
      colorDataBytes, modelTag, compBytes, colorTypeOf, colorTypes_lookup]
  | groupEnd => rfl
  | group nm es => rfl

/-- Normalisation keeps the encoded bytes of a forest unchanged. -/
theorem flatBytes_map_normEntry (T : List Entry) : flatBytes (T.map normEntry) = flatBytes T := by
  induction T with
  | nil => rfl
  | cons e rest ih =>
    simp only [List.map_cons, flatBytes, List.flatMap_cons] at ih ⊢
    rw [blockBytesFlat_normEntry, ih]

/-- The round-trip composition, assembled from one equation per stage. -/
theorem readWrite_eq_of (T : List Entry) (B : Buf) (l : List Entry)
    (hw : write T = Except.ok B) (hr : read B = Except.ok l) :
    readWrite T = some l := by
  unfold readWrite
  rw [hw]
  simp only []
  rw [hr]

/-- The reverse composition, assembled from one equation per stage. -/
theorem writeOfRead_eq_of (B : Buf) (l : List Entry) (B2 : Buf)
    (hr : read B = Except.ok l) (hw : write l = Except.ok B2) :
    writeOfRead B = some B2 := by
  unfold writeOfRead
  rw [hr]
  simp only []
  rw [hw]
  rfl

/-- C1 (amended): on flat forests of color and group-end entries with ASCII
names short enough for the length field, 32-bit component patterns, fewer
than 2^32 entries, and colors already in the decoder's normal form (derived
hex, table-valued type), decoding the encoded bytes returns the forest
itself: read (write T) = T. -/
theorem c1_flat_ascii_roundtrip (T : List Entry) (hwf : forestWf T = true)
    (hlen : T.length < 4294967296) (hnorm : T.map normEntry = T) :
    readWrite T = some T := by
  have hflat := forestWf_isFlat T hwf
  have hcount : countBlocks T < 4294967296 := by
    rw [countBlocks_flat T hflat]
    exact hlen
  have h := readWrite_eq_of T (headerBytes T ++ flatBytes T) (T.map normEntry)
    (write_flat T hflat) (read_write_flat T hwf hcount)
  rw [hnorm] at h
  exact h

/-- C1 witness: a one-color ASCII forest in normal form round-trips. -/
theorem c1_flat_ascii_roundtrip_witness :
    readWrite [Entry.color [65] (Color.rgb 0 0 0 (rgbToHex 0 0 0) (some ColorType.normal))] =
      some [Entry.color [65] (Color.rgb 0 0 0 (rgbToHex 0 0 0) (some ColorType.normal))] :=
  c1_flat_ascii_roundtrip _ (by decide) (by decide) rfl

/-- C7 (amended): every byte sequence the encoder completes on comes from a
flat forest; for such forests with ASCII names short enough for the length
field and 32-bit component patterns, re-encoding the decode of the output
reproduces the output exactly. -/
theorem c7_reencode_of_encoder_output (T : List Entry) (hwf : forestWf T = true)
    (hlen : T.length < 4294967296) :
    ∃ B, write T = Except.ok B ∧ writeOfRead B = some B := by
  have hflat := forestWf_isFlat T hwf
  have hcount : countBlocks T < 4294967296 := by
    rw [countBlocks_flat T hflat]
    exact hlen
  refine ⟨headerBytes T ++ flatBytes T, write_flat T hflat, ?_⟩
  have hflat2 : isFlat (T.map normEntry) = true := by
    rw [isFlat_map_normEntry]
    exact hflat
  have hcb : countBlocks (T.map normEntry) = countBlocks T := by
    rw [countBlocks_flat _ hflat2, countBlocks_flat T hflat, List.length_map]
  have hw2 : write (T.map normEntry) = Except.ok (headerBytes T ++ flatBytes T) := by
    rw [write_flat (T.map normEntry) hflat2, flatBytes_map_normEntry]
    simp only [headerBytes, hcb]
  exact writeOfRead_eq_of _ (T.map normEntry) _ (read_write_flat T hwf hcount) hw2

/-- C7 witness: the encoder's output for a one-color forest (hex field not
in normal form) re-encodes to itself after a decode. -/
theorem c7_reencode_of_encoder_output_witness :
    ∃ B, write [Entry.color [66] (Color.gray 5 [] none)] = Except.ok B ∧
      writeOfRead B = some B :=
  c7_reencode_of_encoder_output _ (by decide) (by decide)

mutual

/-- No group-end entry anywhere in an entry (the claim's counting formula
assigns no contribution to explicit group-end entries). -/
def entryNoGroupEnd : Entry → Bool
  | Entry.groupEnd => false
  | Entry.group _ es => listNoGroupEnd es
  | Entry.color _ _ => true

/-- No group-end entry anywhere in a forest. -/
def listNoGroupEnd : List Entry → Bool
  | [] => true
  | e :: rest => entryNoGroupEnd e && listNoGroupEnd rest

end

mutual

/-- The claim's block count for one entry, as the spec words it: a color is
one block, a group is two blocks plus its children's count. -/
def specBlockCountEntry : Entry → Nat
  | Entry.color _ _ => 1
  | Entry.group _ es => 2 + specBlockCount es
  | Entry.groupEnd => 0

/-- The claim's total block count of a forest. -/
def specBlockCount : List Entry → Nat
  | [] => 0
  | e :: rest => specBlockCountEntry e + specBlockCount rest

end

mutual

/-- On one group-end-free entry _countBlocks agrees with the claim's formula. -/
theorem countBlocksEntry_spec (e : Entry) (h : entryNoGroupEnd e = true) :
    countBlocksEntry e = specBlockCountEntry e := by
  cases e with
  | color nm c => rfl
  | groupEnd => exact absurd h (by simp [entryNoGroupEnd])
  | group nm es =>
    simp only [countBlocksEntry, specBlockCountEntry]
    rw [countBlocks_spec es (by simpa [entryNoGroupEnd] using h)]
    omega

/-- On group-end-free forests _countBlocks agrees with the claim's formula. -/
theorem countBlocks_spec (l : List Entry) (h : listNoGroupEnd l = true) :
    countBlocks l = specBlockCount l := by
  cases l with
  | nil => rfl
  | cons e rest =>
    have h2 : entryNoGroupEnd e = true ∧ listNoGroupEnd rest = true := by
      simpa [listNoGroupEnd, Bool.and_eq_true] using h
    simp only [countBlocks, specBlockCount]
    rw [countBlocksEntry_spec e h2.1, countBlocks_spec rest h2.2]

end

/-- A store at or past position `o` leaves the first `k ≤ o` bytes unchanged. -/
theorem setBytes_take_pres (buf : Buf) (o : Nat) (l : List Nat) (buf2 : Buf) (k : Nat)
    (h : setBytes buf o l = Except.ok buf2) (hk : k ≤ o) : buf2.take k = buf.take k := by
  unfold setBytes at h
  split_ifs at h with hb
  injection h with h2
  subst h2
  have hlen : k ≤ (buf.take o).length := by
    rw [List.length_take]
    omega
  rw [List.append_assoc, List.take_append_of_le_length hlen, List.take_take,
    Nat.min_eq_left hk]

/-- The name loop stores at its offset and upward only. -/
theorem writeWideBytes_take_pres (bytes : List Nat) : ∀ (buf : Buf) (off : Nat) (buf2 : Buf)
    (k : Nat), writeWideBytes buf bytes off = Except.ok buf2 → k ≤ off →
    buf2.take k = buf.take k := by
  induction bytes with
  | nil =>
    intro buf off buf2 k h hk
    injection h with h2
    subst h2
    rfl
  | cons b rest ih =>
    intro buf off buf2 k h hk
    unfold writeWideBytes at h
    obtain ⟨buf1, h1, h⟩ := bind_ok_elim h
    rw [ih buf1 (off + 2) buf2 k h (by omega)]
    exact setBytes_take_pres buf off _ buf1 k h1 hk

/-- _writeColorData stores at its offset and upward only. -/
theorem writeColorData_take_pres (buf : Buf) (c : Color) (off : Nat) (buf2 : Buf) (k : Nat)
    (h : writeColorData buf c off = Except.ok buf2) (hk : k ≤ off) :
    buf2.take k = buf.take k := by
  unfold writeColorData at h
  obtain ⟨buf1, h1, h⟩ := bind_ok_elim h
  have e1 := setBytes_take_pres buf off _ buf1 k h1 hk
  cases c with
  | rgb r g b hx t =>
    obtain ⟨bufa, ha, h⟩ := bind_ok_elim h
    obtain ⟨bufb, hbb, h⟩ := bind_ok_elim h
    obtain ⟨bufc, hc, h⟩ := bind_ok_elim h
    rw [setBytes_take_pres bufc _ _ buf2 k h (by omega),
      setBytes_take_pres bufb _ _ bufc k hc (by omega),
      setBytes_take_pres bufa _ _ bufb k hbb (by omega),
      setBytes_take_pres buf1 _ _ bufa k ha (by omega), e1]
  | cmyk c1 m y kk t =>
    obtain ⟨bufa, ha, h⟩ := bind_ok_elim h
    obtain ⟨bufb, hbb, h⟩ := bind_ok_elim h
    obtain ⟨bufc, hc, h⟩ := bind_ok_elim h
    obtain ⟨bufd, hd, h⟩ := bind_ok_elim h
    rw [setBytes_take_pres bufd _ _ buf2 k h (by omega),
      setBytes_take_pres bufc _ _ bufd k hd (by omega),
      setBytes_take_pres bufb _ _ bufc k hc (by omega),
      setBytes_take_pres bufa _ _ bufb k hbb (by omega),
      setBytes_take_pres buf1 _ _ bufa k ha (by omega), e1]
  | gray g hx t =>
    obtain ⟨bufa, ha, h⟩ := bind_ok_elim h
    rw [setBytes_take_pres bufa _ _ buf2 k h (by omega),
      setBytes_take_pres buf1 _ _ bufa k ha (by omega), e1]
  | lab l2 a b t =>
    obtain ⟨bufa, ha, h⟩ := bind_ok_elim h
    obtain ⟨bufb, hbb, h⟩ := bind_ok_elim h
    obtain ⟨bufc, hc, h⟩ := bind_ok_elim h
    rw [setBytes_take_pres bufc _ _ buf2 k h (by omega),
      setBytes_take_pres bufb _ _ bufc k hc (by omega),
      setBytes_take_pres bufa _ _ bufb k hbb (by omega),
      setBytes_take_pres buf1 _ _ bufa k ha (by omega), e1]

/-- _writeColor stores at its offset and upward only, and advances the offset. -/
theorem writeColor_take_pres (buf : Buf) (name : List Nat) (c : Color) (off : Nat)
    (r : Buf × Nat) (k : Nat) (h : writeColor buf name c off = Except.ok r) (hk : k ≤ off) :
    r.1.take k = buf.take k ∧ off ≤ r.2 := by
  unfold writeColor at h
  simp only [] at h
  obtain ⟨buf1, h1, h⟩ := bind_ok_elim h
  obtain ⟨buf2, h2, h⟩ := bind_ok_elim h
  obtain ⟨buf3, h3, h⟩ := bind_ok_elim h
  obtain ⟨buf4, h4, h⟩ := bind_ok_elim h
  obtain ⟨buf5, h5, h⟩ := bind_ok_elim h
  obtain ⟨buf6, h6, h⟩ := bind_ok_elim h
  have hr := pure_ok_elim h
  subst hr
  refine ⟨?_, by simp only []; omega⟩
  simp only []
  rw [writeColorData_take_pres buf5 c _ buf6 k h6 (by omega),
    setBytes_take_pres buf4 _ _ buf5 k h5 (by omega),
    writeWideBytes_take_pres _ buf3 _ buf4 k h4 (by omega),
    setBytes_take_pres buf2 _ _ buf3 k h3 (by omega),
    setBytes_take_pres buf1 _ _ buf2 k h2 (by omega),
    setBytes_take_pres buf _ _ buf1 k h1 hk]

/-- The group-start block stores at its offset and upward only, and advances
the offset. -/
theorem writeGroupStart_take_pres (buf : Buf) (name : List Nat) (off : Nat)
    (r : Buf × Nat) (k : Nat) (h : writeGroupStart buf name off = Except.ok r) (hk : k ≤ off) :
    r.1.take k = buf.take k ∧ off ≤ r.2 := by
  unfold writeGroupStart at h
  simp only [] at h
  obtain ⟨buf1, h1, h⟩ := bind_ok_elim h
  obtain ⟨buf2, h2, h⟩ := bind_ok_elim h
  obtain ⟨buf3, h3, h⟩ := bind_ok_elim h
  obtain ⟨buf4, h4, h⟩ := bind_ok_elim h
  obtain ⟨buf5, h5, h⟩ := bind_ok_elim h
  have hr := pure_ok_elim h
  subst hr
  refine ⟨?_, by simp only []; omega⟩
  simp only []
  rw [setBytes_take_pres buf4 _ _ buf5 k h5 (by omega),
    writeWideBytes_take_pres _ buf3 _ buf4 k h4 (by omega),
    setBytes_take_pres buf2 _ _ buf3 k h3 (by omega),
    setBytes_take_pres buf1 _ _ buf2 k h2 (by omega),
    setBytes_take_pres buf _ _ buf1 k h1 hk]

/-- _writeGroupEnd stores at its offset and upward only, and advances the
offset. -/
theorem writeGroupEnd_take_pres (buf : Buf) (off : Nat) (r : Buf × Nat) (k : Nat)
    (h : writeGroupEnd buf off = Except.ok r) (hk : k ≤ off) :
    r.1.take k = buf.take k ∧ off ≤ r.2 := by
  unfold writeGroupEnd at h
  obtain ⟨buf1, h1, h⟩ := bind_ok_elim h
  obtain ⟨buf2, h2, h⟩ := bind_ok_elim h
  have hr := pure_ok_elim h
  subst hr
  refine ⟨?_, by simp only []; omega⟩
  simp only []
  rw [setBytes_take_pres buf1 _ _ buf2 k h2 (by omega),
    setBytes_take_pres buf _ _ buf1 k h1 hk]

/-- The entry-writing loop stores at its offset and upward only: the bytes
below the starting offset — in particular the 12-byte header — survive. -/
theorem writeEntriesFuel_take_pres : ∀ (fuel : Nat) (es : List Entry) (buf : Buf) (off : Nat)
    (r : Buf × Nat) (k : Nat), writeEntriesFuel fuel buf es off = Except.ok r → k ≤ off →
    r.1.take k = buf.take k ∧ off ≤ r.2 := by
  intro fuel
  induction fuel with
  | zero =>
    intro es buf off r k h hk
    exact absurd h (by simp [writeEntriesFuel])
  | succ f ih =>
    intro es buf off r k h hk
    cases es with
    | nil =>
      unfold writeEntriesFuel at h
      injection h with h2
      subst h2
      exact ⟨rfl, Nat.le_refl off⟩
    | cons e rest =>
      unfold writeEntriesFuel at h
      cases e with
      | color nm c =>
        simp only [] at h
        obtain ⟨r1, h1, h⟩ := bind_ok_elim h
        obtain ⟨hst, hso⟩ := writeColor_take_pres buf nm c off r1 k h1 hk
        obtain ⟨hrt, hro⟩ := ih rest r1.1 r1.2 r k h (by omega)
        exact ⟨by rw [hrt, hst], by omega⟩
      | groupEnd =>
        simp only [] at h
        obtain ⟨r1, h1, h⟩ := bind_ok_elim h
        obtain ⟨hst, hso⟩ := writeGroupEnd_take_pres buf off r1 k h1 hk
        obtain ⟨hrt, hro⟩ := ih rest r1.1 r1.2 r k h (by omega)
        exact ⟨by rw [hrt, hst], by omega⟩
      | group nm es2 =>
        simp only [] at h
        obtain ⟨s, hs, h⟩ := bind_ok_elim h
        obtain ⟨r2, hr2, h⟩ := bind_ok_elim h
        obtain ⟨r1, h1, h⟩ := bind_ok_elim h
        obtain ⟨h1t, h1o⟩ := writeGroupStart_take_pres buf nm off s k hs hk
        obtain ⟨h2t, h2o⟩ := ih es2 s.1 s.2 r2 k hr2 (by omega)
        obtain ⟨h3t, h3o⟩ := writeGroupEnd_take_pres r2.1 r2.2 r1 k h1 (by omega)
        obtain ⟨hrt, hro⟩ := ih rest r1.1 r1.2 r k h (by omega)
        exact ⟨by rw [hrt, h3t, h2t, h1t], by omega⟩

/-- C9: on forests free of explicit group-end entries (the claim's formula
gives them no contribution) whose block count fits the uint32 field,
_countBlocks equals the claim's formula — one block per color, two plus the
recursive count per group — and whenever encode completes, the uint32 at
offset 8 of its output is exactly that count. -/
theorem c9_block_count_header (T : List Entry) (hng : listNoGroupEnd T = true)
    (hcnt : countBlocks T < 4294967296) :
    countBlocks T = specBlockCount T ∧
      ∀ B, write T = Except.ok B → getUint32 B 8 = Except.ok (specBlockCount T) := by
  have hspec := countBlocks_spec T hng
  refine ⟨hspec, ?_⟩
  intro B hB
  unfold write at hB
  simp only [] at hB
  obtain ⟨buf1, h1, hB⟩ := bind_ok_elim hB
  obtain ⟨r, h2, hB⟩ := bind_ok_elim hB
  have hBr := pure_ok_elim hB
  subst hBr
  rw [writeHeader_spec _ T (by rw [List.length_replicate]; omega)] at h1
  injection h1 with h1
  subst h1
  obtain ⟨htk, _⟩ := writeEntriesFuel_take_pres (listNodes T + 1) T _ 12 r 12 h2
    (Nat.le_refl 12)
  have htake : r.1.take 12 = headerBytes T := by
    rw [htk, List.take_left' (headerBytes_length T)]
  have hsplit : r.1.drop 8 = be32 (countBlocks T) ++ r.1.drop 12 := by
    conv_lhs => rw [(List.take_append_drop 12 r.1).symm]
    rw [htake]
    rw [show headerBytes T =
      (be32 ASE_SIGNATURE ++ be16 1 ++ be16 0) ++ be32 (countBlocks T) from by
        simp [headerBytes, List.append_assoc]]
    rw [List.append_assoc]
    rw [List.drop_left'
      (show ((be32 ASE_SIGNATURE ++ be16 1 ++ be16 0) : List Nat).length = 8 from by
        simp [be16, be32])]
  rw [getUint32_be32 r.1 8 (countBlocks T) _ hsplit, Nat.mod_eq_of_lt hcnt, hspec]

/-- C9 witness: a group with one color child counts three blocks both ways,
as the header field records whenever encode completes. -/
theorem c9_block_count_header_witness :
    countBlocks [Entry.group [71] [Entry.color [65] (Color.gray 0 [] none)]] =
      specBlockCount [Entry.group [71] [Entry.color [65] (Color.gray 0 [] none)]] ∧
      ∀ B, write [Entry.group [71] [Entry.color [65] (Color.gray 0 [] none)]] = Except.ok B →
        getUint32 B 8 =
          Except.ok (specBlockCount [Entry.group [71] [Entry.color [65] (Color.gray 0 [] none)]]) :=
  c9_block_count_header _ (by decide) (by decide)

/-- C10: a color block whose stored type ordinal is three or more decodes
without error into a color entry whose type field is absent: the ordinal
indexes past the end of the three-entry color-type table. -/
theorem c10_out_of_range_ordinal_undefined (buf : Buf) (off : Nat) (name : List Nat)
    (c : Color) (ord : Nat) (post : List Nat)
    (h : buf.drop off = colorPayloadBytes name c ord ++ post)
    (hascii : ∀ ch ∈ name, ch < 128) (hlen : name.length + 1 < 65536)
    (hcomp : compValid c = true) (hord3 : 3 ≤ ord) (hord : ord < 65536) :
    readColor buf off = Except.ok (Entry.color name (recolor c ord)) ∧
      colorTypeOf (recolor c ord) = none := by
  refine ⟨readColor_payload_spec buf off name c ord post h hascii hlen hcomp hord, ?_⟩
  have hnone : ASE_COLOR_TYPES[ord]? = (none : Option ColorType) := by
    apply List.getElem?_eq_none
    simp only [ASE_COLOR_TYPES, List.length_cons, List.length_nil]
    omega
  cases c <;> simp [recolor, colorTypeOf, hnone]

/-- Code of an uppercase hexadecimal digit: 0-9 or A-F. -/
def isHexDigitCode (c : Nat) : Bool :=
  decide (48 ≤ c ∧ c ≤ 57) || decide (65 ≤ c ∧ c ≤ 70)

/-- A channel bit pattern whose float32 value is finite with
Math.floor(value * 255) between 0 and 255. -/
def channelInRange (bits : Nat) : Bool :=
  match f32Val bits with
  | F32Val.finite n e => decide (0 ≤ floorMul255 n e ∧ floorMul255 n e ≤ 255)
  | _ => false

/-- floorMul255 is Math.floor of the exact real product value * 255. -/
theorem floorMul255_eq_floor (n e : ℤ) : floorMul255 n e = Int.floor (f32Q n e * 255) := by
  unfold floorMul255 f32Q
  split_ifs with he
  · have h2 : (2 : ℚ) ^ e = ((2 ^ e.toNat : ℤ) : ℚ) := by
      conv_lhs => rw [show e = ((e.toNat : ℕ) : ℤ) from by omega]
      rw [zpow_natCast]
      push_cast
      ring
    rw [h2, show ((n : ℚ) * ((2 ^ e.toNat : ℤ) : ℚ) * 255) =
      ((n * 255 * 2 ^ e.toNat : ℤ) : ℚ) from by push_cast; ring]
    rw [Int.floor_intCast]
  · have h2 : (2 : ℚ) ^ e = (((2 ^ (-e).toNat : ℕ) : ℚ))⁻¹ := by
      conv_lhs => rw [show e = -(((-e).toNat : ℕ) : ℤ) from by omega]
      rw [zpow_neg, zpow_natCast]
      push_cast
      ring
    rw [h2, show (n : ℚ) * (((2 ^ (-e).toNat : ℕ) : ℚ))⁻¹ * 255 =
      ((n * 255 : ℤ) : ℚ) / (((2 ^ (-e).toNat : ℕ) : ℚ)) from by push_cast; ring]
    rw [Rat.floor_intCast_div_natCast]

/-- hexDigitCode of a value below 16 is an uppercase hexadecimal digit code. -/
theorem hexDigitCode_hex (k : Nat) (h : k < 16) : isHexDigitCode (hexDigitCode k) = true := by
  unfold hexDigitCode isHexDigitCode
  split_ifs with h10 <;> simp only [Bool.or_eq_true, decide_eq_true_eq] <;> omega

/-- The digit emitter on a one-digit value, for any positive fuel. -/
theorem natToHexAux_small (fuel k : Nat) (hf : 1 ≤ fuel) (hk : k < 16) :
    natToHexAux fuel k = [hexDigitCode k] := by
  cases fuel with
  | zero => omega
  | succ f =>
    unfold natToHexAux
    rw [if_pos hk]

/-- toString(16) of a byte value, zero-padded: exactly two uppercase
hexadecimal digit codes. -/
theorem padded_two (m : Nat) (hm : m ≤ 255) :
    (padStart2 (natToHex m)).length = 2 ∧
      ∀ ch ∈ padStart2 (natToHex m), isHexDigitCode ch = true := by
  rcases Nat.lt_or_ge m 16 with hlt | hge
  · have h1 : natToHex m = [hexDigitCode m] := by
      unfold natToHex natToHexAux
      rw [if_pos hlt]
    have h2 : padStart2 [hexDigitCode m] = [48, hexDigitCode m] := by
      unfold padStart2
      rw [if_pos (by simp)]
      rfl
    rw [h1, h2]
    refine ⟨rfl, ?_⟩
    intro ch hch
    rcases List.mem_cons.mp hch with rfl | hch2
    · rfl
    rcases List.mem_cons.mp hch2 with rfl | hch3
    · exact hexDigitCode_hex m hlt
    · cases hch3
  · have hd : m / 16 < 16 := by omega
    have h1 : natToHex m = [hexDigitCode (m / 16), hexDigitCode (m % 16)] := by
      unfold natToHex natToHexAux
      rw [if_neg (by omega)]
      rw [natToHexAux_small m (m / 16) (by omega) hd]
      rfl
    have h2 : padStart2 [hexDigitCode (m / 16), hexDigitCode (m % 16)] =
        [hexDigitCode (m / 16), hexDigitCode (m % 16)] := by
      unfold padStart2
      rw [if_neg (by simp)]
    rw [h1, h2]
    refine ⟨rfl, ?_⟩
    intro ch hch
    rcases List.mem_cons.mp hch with rfl | hch2
    · exact hexDigitCode_hex _ hd
    rcases List.mem_cons.mp hch2 with rfl | hch3
    · exact hexDigitCode_hex _ (Nat.mod_lt _ (by omega))
    · cases hch3

/-- One channel of the hex attribute under the range condition: exactly two
uppercase hexadecimal digit codes. -/
theorem componentToHex_in_range (bits : Nat) (h : channelInRange bits = true) :
    (componentToHex bits).length = 2 ∧
      ∀ ch ∈ componentToHex bits, isHexDigitCode ch = true := by
  unfold channelInRange at h
  unfold componentToHex
  cases hf : f32Val bits with
  | nan => rw [hf] at h; simp at h
  | posInf => rw [hf] at h; simp at h
  | negInf => rw [hf] at h; simp at h
  | finite n e =>
    rw [hf] at h
    simp only [Bool.and_eq_true, decide_eq_true_eq] at h
    show (padStart2 (intToStringBase16 (floorMul255 n e))).length = 2 ∧
      ∀ ch ∈ padStart2 (intToStringBase16 (floorMul255 n e)), isHexDigitCode ch = true
    rw [show intToStringBase16 (floorMul255 n e) = natToHex (floorMul255 n e).toNat from by
      unfold intToStringBase16
      rw [if_neg (by omega)]]
    exact padded_two (floorMul255 n e).toNat (by omega)

/-- C8 (amended): whenever each channel's float32 value is finite with
floor(value * 255) between 0 and 255 — components in [0, 1] in particular —
the derived hex attribute of _readColor is exactly six uppercase hexadecimal
digit codes, two per channel (Gray uses its one channel three times). -/
theorem c8_hex_six_digits_in_range (r g b : Nat)
    (hr : channelInRange r = true) (hg : channelInRange g = true)
    (hb : channelInRange b = true) :
    (componentToHex r).length = 2 ∧ (componentToHex g).length = 2 ∧
      (componentToHex b).length = 2 ∧ (rgbToHex r g b).length = 6 ∧
      ∀ ch ∈ rgbToHex r g b, isHexDigitCode ch = true := by
  obtain ⟨hr1, hr2⟩ := componentToHex_in_range r hr
  obtain ⟨hg1, hg2⟩ := componentToHex_in_range g hg
  obtain ⟨hb1, hb2⟩ := componentToHex_in_range b hb
  refine ⟨hr1, hg1, hb1, ?_, ?_⟩
  · simp [rgbToHex, List.length_append, hr1, hg1, hb1]
  · intro ch hch
    simp only [rgbToHex, List.mem_append] at hch
    rcases hch with (hch | hch) | hch
    exacts [hr2 ch hch, hg2 ch hch, hb2 ch hch]

/-- C8 witness: channels 0.0 and 1.0 (patterns 0 and 0x3F800000) yield a
six-digit hex attribute. -/
theorem c8_hex_six_digits_in_range_witness :
    (componentToHex 0).length = 2 ∧ (componentToHex 1065353216).length = 2 ∧
      (componentToHex 0).length = 2 ∧ (rgbToHex 0 1065353216 0).length = 6 ∧
      ∀ ch ∈ rgbToHex 0 1065353216 0, isHexDigitCode ch = true :=
  c8_hex_six_digits_in_range 0 1065353216 0 (by decide) (by decide) (by decide)

/-- C10 witness: ordinal 5 on a gray block decodes to a color entry with an
absent type field. -/
theorem c10_out_of_range_ordinal_undefined_witness :
    readColor (colorPayloadBytes [65] (Color.gray 7 [] none) 5) 0 =
      Except.ok (Entry.color [65] (recolor (Color.gray 7 [] none) 5)) ∧
      colorTypeOf (recolor (Color.gray 7 [] none) 5) = none :=
  c10_out_of_range_ordinal_undefined (colorPayloadBytes [65] (Color.gray 7 [] none) 5) 0
    [65] (Color.gray 7 [] none) 5 [] (by simp) (by decide) (by decide) (by decide)
    (by decide) (by decide)

end AseReader
